import Mathlib

/-!
Verification of the convolution image-filter program (OpenMP and pthreads
variants).  The program is shallowly embedded: C `float` arithmetic is
modelled exactly as correctly-rounded binary floating point over ℚ
(round to nearest, ties to even, 24-bit significand for `float`, 53-bit
for `double`); buffers are total functions `ℤ → ℕ` holding byte values;
the parallel loops are modelled as lists of (index, value) writes
committed to a buffer, which makes scheduling-order questions precise.
-/

namespace PicFilter

/-! ### Exact model of IEEE binary floating point over ℚ -/

/-- Fuel-based floor of the base-2 logarithm of a natural number
(`lg2 fuel n` is correct whenever `1 ≤ n ≤ fuel`). -/
def lg2 : ℕ → ℕ → ℕ
  | 0, _ => 0
  | fuel + 1, n => if n ≤ 1 then 0 else lg2 fuel (n / 2) + 1

/-- Floor of the base-2 logarithm of a natural number (correct for `1 ≤ n`). -/
def natLog2 (n : ℕ) : ℕ := lg2 n n

/-- Floor of the base-2 logarithm of `|q|`, for a nonzero rational `q`. -/
def ratFloorLog2 (q : ℚ) : ℤ :=
  let e0 : ℤ := (natLog2 q.num.natAbs : ℤ) - (natLog2 q.den : ℤ)
  if |q| < 2 ^ e0 then e0 - 1 else e0

/-- Round a rational to the nearest integer, ties to even. -/
def rne (q : ℚ) : ℤ :=
  let f := ⌊q⌋
  let r := q - f
  if r < 1 / 2 then f
  else if 1 / 2 < r then f + 1
  else if 2 ∣ f then f else f + 1

/-- Round a rational to the nearest binary floating-point value with a
`p`-bit significand (round to nearest, ties to even; exponents unbounded,
which is accurate here since the program's values never overflow or
reach the subnormal range). -/
def flp (p : ℕ) (q : ℚ) : ℚ :=
  if q = 0 then 0
  else
    let e : ℤ := ratFloorLog2 q - ((p : ℤ) - 1)
    (rne (q / 2 ^ e) : ℚ) * 2 ^ e

/-- Rounding to C `float` (binary32). -/
def f32 (q : ℚ) : ℚ := flp 24 q

/-- Rounding to C `double` (binary64). -/
def f64 (q : ℚ) : ℚ := flp 53 q

/-- The value of a C `float` initialized from a constant expression
evaluated in `double` (e.g. `1.0/9`): round to `double`, then to `float`. -/
def cfloat (q : ℚ) : ℚ := f32 (f64 q)

theorem lg2_spec : ∀ (fuel n : ℕ), 1 ≤ n → n ≤ fuel →
    2 ^ lg2 fuel n ≤ n ∧ n < 2 ^ (lg2 fuel n + 1) := by
  intro fuel
  induction fuel with
  | zero => intro n h1 h2; omega
  | succ f ih =>
    intro n h1 h2
    by_cases hn : n ≤ 1
    · have : n = 1 := le_antisymm hn h1
      subst this
      simp [lg2]
    · have hn2 : 2 ≤ n := by omega
      have hrec := ih (n / 2) (by omega) (by omega)
      have hfold : lg2 (f + 1) n = lg2 f (n / 2) + 1 := by
        simp [lg2, hn]
      rw [hfold]
      constructor
      · calc 2 ^ (lg2 f (n / 2) + 1) = 2 * 2 ^ lg2 f (n / 2) := by ring
        _ ≤ 2 * (n / 2) := by omega
        _ ≤ n := by omega
      · have h2 : n / 2 < 2 ^ (lg2 f (n / 2) + 1) := hrec.2
        calc n ≤ 2 * (n / 2) + 1 := by omega
        _ < 2 * 2 ^ (lg2 f (n / 2) + 1) := by omega
        _ = 2 ^ (lg2 f (n / 2) + 1 + 1) := by ring

theorem natLog2_spec (n : ℕ) (h : 1 ≤ n) :
    2 ^ natLog2 n ≤ n ∧ n < 2 ^ (natLog2 n + 1) :=
  lg2_spec n n h le_rfl

theorem ratFloorLog2_spec (q : ℚ) (hq : q ≠ 0) :
    (2 : ℚ) ^ ratFloorLog2 q ≤ |q| ∧ |q| < 2 ^ (ratFloorLog2 q + 1) := by
  have hnum : 1 ≤ q.num.natAbs := by
    have : q.num ≠ 0 := Rat.num_ne_zero.mpr hq
    omega
  have hden : 1 ≤ q.den := q.pos
  obtain ⟨ha1, ha2⟩ := natLog2_spec q.num.natAbs hnum
  obtain ⟨hb1, hb2⟩ := natLog2_spec q.den hden
  set a : ℤ := (natLog2 q.num.natAbs : ℤ) with hA
  set b : ℤ := (natLog2 q.den : ℤ) with hB
  have hdpos : (0 : ℚ) < (q.den : ℚ) := by exact_mod_cast hden
  have habs : |q| = (q.num.natAbs : ℚ) / (q.den : ℚ) := by
    conv_lhs => rw [← Rat.num_div_den q]
    rw [abs_div, abs_of_pos hdpos]
    congr 1
    rw [Int.cast_natAbs, Int.cast_abs]
  -- |q| lies strictly between 2 ^ (a - b - 1) and 2 ^ (a - b + 1)
  have hlow : (2 : ℚ) ^ (a - b - 1) < |q| := by
    rw [habs, lt_div_iff₀ hdpos]
    have h1 : (2 : ℚ) ^ (a - b - 1) * (q.den : ℚ) <
        2 ^ (a - b - 1) * 2 ^ (b + 1) := by
      have : (q.den : ℚ) < 2 ^ (b + 1) := by
        have := hb2
        push_cast [hB]
        exact_mod_cast this
      exact (mul_lt_mul_left (by positivity)).mpr this
    have h2 : (2 : ℚ) ^ (a - b - 1) * 2 ^ (b + 1) = 2 ^ a := by
      rw [← zpow_add₀ (by norm_num : (2 : ℚ) ≠ 0)]
      ring_nf
    have h3 : (2 : ℚ) ^ a ≤ (q.num.natAbs : ℚ) := by
      have := ha1
      push_cast [hA]
      exact_mod_cast this
    calc (2 : ℚ) ^ (a - b - 1) * (q.den : ℚ)
        < 2 ^ (a - b - 1) * 2 ^ (b + 1) := h1
      _ = 2 ^ a := h2
      _ ≤ (q.num.natAbs : ℚ) := h3
  have hhigh : |q| < (2 : ℚ) ^ (a - b + 1) := by
    rw [habs, div_lt_iff₀ hdpos]
    have h1 : ((q.num.natAbs : ℚ)) < 2 ^ (a + 1) := by
      have := ha2
      push_cast [hA]
      exact_mod_cast this
    have h2 : (2 : ℚ) ^ b ≤ (q.den : ℚ) := by
      have := hb1
      push_cast [hB]
      exact_mod_cast this
    have h3 : (2 : ℚ) ^ (a + 1) ≤ 2 ^ (a - b + 1) * (q.den : ℚ) := by
      calc (2 : ℚ) ^ (a + 1) = 2 ^ (a - b + 1) * 2 ^ b := by
            rw [← zpow_add₀ (by norm_num : (2 : ℚ) ≠ 0)]
            ring_nf
        _ ≤ 2 ^ (a - b + 1) * (q.den : ℚ) := by
            exact (mul_le_mul_left (by positivity)).mpr h2
    exact lt_of_lt_of_le h1 h3
  have he0 : ratFloorLog2 q = if |q| < 2 ^ (a - b) then a - b - 1 else a - b := by
    simp [ratFloorLog2, hA, hB]
  rw [he0]
  by_cases hcase : |q| < 2 ^ (a - b)
  · rw [if_pos hcase]
    refine ⟨hlow.le, ?_⟩
    simpa using hcase
  · rw [if_neg hcase]
    exact ⟨le_of_not_lt hcase, hhigh⟩

/-- The floor-log is determined by its bracketing property. -/
theorem ratFloorLog2_eq (q : ℚ) (L : ℤ) (hq : q ≠ 0)
    (h1 : (2 : ℚ) ^ L ≤ |q|) (h2 : |q| < 2 ^ (L + 1)) :
    ratFloorLog2 q = L := by
  obtain ⟨g1, g2⟩ := ratFloorLog2_spec q hq
  set M := ratFloorLog2 q
  by_contra hne
  rcases lt_or_gt_of_ne hne with h | h
  · have hML : M + 1 ≤ L := h
    have : (2 : ℚ) ^ (M + 1) ≤ 2 ^ L :=
      zpow_le_zpow_right₀ (by norm_num) hML
    exact absurd (lt_of_lt_of_le g2 (le_trans this h1)) (lt_irrefl _)
  · have hLM : L + 1 ≤ M := h
    have : (2 : ℚ) ^ (L + 1) ≤ 2 ^ M :=
      zpow_le_zpow_right₀ (by norm_num) hLM
    exact absurd (lt_of_lt_of_le h2 (le_trans this g1)) (lt_irrefl _)

theorem rne_intCast (m : ℤ) : rne (m : ℚ) = m := by
  simp [rne]

/-- Exactly representable values are fixed points of the rounding:
any `q = m * 2 ^ e` with `|m| < 2 ^ p` is returned unchanged. -/
theorem flp_fix (p : ℕ) (q : ℚ) (m e : ℤ)
    (hq : q = (m : ℚ) * 2 ^ e) (hm : |m| < 2 ^ p) :
    flp p q = q := by
  by_cases hm0 : m = 0
  · subst hm0
    simp only [Int.cast_zero, zero_mul] at hq
    simp [flp, hq]
  · have hq0 : q ≠ 0 := by
      rw [hq]
      exact mul_ne_zero (by exact_mod_cast hm0) (by positivity)
    set L := ratFloorLog2 q with hL
    obtain ⟨g1, g2⟩ := ratFloorLog2_spec q hq0
    -- |q| < 2 ^ (p + e), hence L + 1 ≤ p + e
    have habs : |q| = ((|m| : ℤ) : ℚ) * 2 ^ e := by
      rw [hq, abs_mul, abs_of_pos (show (0 : ℚ) < 2 ^ e by positivity), Int.cast_abs]
    have hlt : |q| < 2 ^ ((p : ℤ) + e) := by
      rw [habs]
      have h1 : ((|m| : ℤ) : ℚ) < 2 ^ (p : ℤ) := by
        rw [zpow_natCast]
        exact_mod_cast hm
      calc ((|m| : ℤ) : ℚ) * 2 ^ e < 2 ^ (p : ℤ) * 2 ^ e :=
            (mul_lt_mul_right (by positivity)).mpr h1
        _ = 2 ^ ((p : ℤ) + e) := (zpow_add₀ (by norm_num) _ _).symm
    have hLe : L + 1 ≤ (p : ℤ) + e := by
      by_contra hc
      push_neg at hc
      have hle : ((p : ℤ) + e) ≤ L := by omega
      have h2 : (2 : ℚ) ^ ((p : ℤ) + e) ≤ 2 ^ L :=
        zpow_le_zpow_right₀ (by norm_num) hle
      exact absurd (lt_of_lt_of_le hlt (le_trans h2 g1)) (lt_irrefl _)
    -- q / 2 ^ (L - (p - 1)) is the integer m * 2 ^ (p - 1 - L + e)
    have hexp : (0 : ℤ) ≤ ((p : ℤ) - 1) - L + e := by omega
    set k : ℕ := (((p : ℤ) - 1) - L + e).toNat with hkdef
    have hk : (k : ℤ) = ((p : ℤ) - 1) - L + e := Int.toNat_of_nonneg hexp
    have hkk : (k : ℤ) + (L - ((p : ℤ) - 1)) = e := by omega
    have hdiv : q / 2 ^ (L - ((p : ℤ) - 1)) = ((m * 2 ^ k : ℤ) : ℚ) := by
      rw [hq, div_eq_iff (show ((2 : ℚ) ^ (L - ((p : ℤ) - 1))) ≠ 0 by positivity)]
      push_cast
      rw [mul_assoc, ← zpow_natCast (2 : ℚ) k, ← zpow_add₀ (show (2 : ℚ) ≠ 0 by norm_num),
        hkk]
    have hback : ((m * 2 ^ k : ℤ) : ℚ) * 2 ^ (L - ((p : ℤ) - 1)) = q := by
      rw [hq]
      push_cast
      rw [mul_assoc, ← zpow_natCast (2 : ℚ) k, ← zpow_add₀ (show (2 : ℚ) ≠ 0 by norm_num),
        hkk]
    calc flp p q = (rne (q / 2 ^ (L - ((p : ℤ) - 1))) : ℚ) * 2 ^ (L - ((p : ℤ) - 1)) := by
          simp only [flp, if_neg hq0, ← hL]
      _ = q := by rw [hdiv, rne_intCast, hback]

theorem flp_zero (p : ℕ) : flp p 0 = 0 := by simp [flp]

/-- Evaluation rule for the rounding: if `|q|` lies in `[2 ^ L, 2 ^ (L+1))`
and the scaled significand rounds to `m`, the result is `m * 2 ^ (L - (p-1))`. -/
theorem flp_eval (p : ℕ) (q : ℚ) (L m : ℤ)
    (hq : q ≠ 0) (h1 : (2 : ℚ) ^ L ≤ |q|) (h2 : |q| < 2 ^ (L + 1))
    (hr : rne (q / 2 ^ (L - ((p : ℤ) - 1))) = m) :
    flp p q = (m : ℚ) * 2 ^ (L - ((p : ℤ) - 1)) := by
  have hLL : ratFloorLog2 q = L := ratFloorLog2_eq q L hq h1 h2
  simp only [flp, if_neg hq, hLL, hr]

/-! ### Rounding evaluation helper -/

/-- Round-to-nearest evaluation at a non-tie point. -/
theorem rne_eval (q : ℚ) (m : ℤ) (h : |q - m| < 1 / 2) : rne q = m := by
  rw [abs_sub_lt_iff] at h
  obtain ⟨h1, h2⟩ := h
  rcases le_or_lt (m : ℚ) q with hc | hc
  · have hf : ⌊q⌋ = m := by
      rw [Int.floor_eq_iff]
      constructor
      · exact_mod_cast hc
      · linarith
    rw [rne]
    simp only [hf]
    rw [if_pos]
    linarith
  · have hf : ⌊q⌋ = m - 1 := by
      rw [Int.floor_eq_iff]
      push_cast
      constructor <;> linarith
    rw [rne]
    simp only [hf]
    rw [if_neg, if_pos]
    · omega
    · push_cast
      linarith
    · push_cast
      linarith

/-! ### Translation of the program (src/openMP.c, both variants) -/

/-- Border handling from the inner convolution loop: the two successive
`if` statements clamping a neighbor coordinate into `[0, bound-1]`. -/
def clampCoord (v bound : ℤ) : ℤ :=
  let v1 := if v < 0 then 0 else v
  if bound ≤ v1 then bound - 1 else v1

/-- Flat buffer index `(y * width + x) * channels + c`. -/
def pixelIdx (width channels x y c : ℤ) : ℤ := (y * width + x) * channels + c

/-- Kernel table index `(ky + kernel_half) * kernel_size + (kx + kernel_half)`. -/
def kernelIdx (khalf ksize ky kx : ℤ) : ℤ := (ky + khalf) * ksize + (kx + khalf)

/-- Read a kernel coefficient from the flat kernel table. -/
def kernelVal (kernel : List ℚ) (i : ℤ) : ℚ := kernel.getD i.toNat 0

/-- Left fold of `f` over the `n` consecutive integers starting at `i`,
in increasing order (the shape of the C `for` loops). -/
def foldRange (f : ℤ → ℚ → ℚ) : ℕ → ℤ → ℚ → ℚ
  | 0, _, s => s
  | n + 1, i, s => foldRange f n (i + 1) (f i s)

/-- The accumulated convolution sum for one output channel: the two nested
kernel-offset loops, reading the source at per-axis clamped coordinates,
with every C `float` operation rounded to binary32. -/
def convSum (input : ℤ → ℕ) (width height channels : ℤ) (kernel : List ℚ)
    (ksize : ℤ) (x y c : ℤ) : ℚ :=
  let khalf := ksize / 2
  foldRange (fun ky s1 =>
    foldRange (fun kx s2 =>
      f32 (s2 + f32 (f32 ((input (pixelIdx width channels
        (clampCoord (x + kx) width) (clampCoord (y + ky) height) c) : ℚ)) *
        kernelVal kernel (kernelIdx khalf ksize ky kx))))
      (2 * khalf + 1).toNat (-khalf) s1)
    (2 * khalf + 1).toNat (-khalf) 0

/-- Truncation toward zero of a rational (the C cast of a nonnegative-or-
clamped `double` to an integer type). -/
def ratTrunc (q : ℚ) : ℤ := if q < 0 then -⌊-q⌋ else ⌊q⌋

/-- The final store: `(unsigned char)(fmax(0, fmin(255, sum)))` — clamp the
sum into `[0, 255]`, then truncate toward zero to a byte. -/
def clampByte (q : ℚ) : ℕ := (ratTrunc (max 0 (min 255 q))).toNat

/-- Value of one output byte, as computed by both variants' loop bodies. -/
def applyFilterAt (input : ℤ → ℕ) (width height channels : ℤ) (kernel : List ℚ)
    (ksize : ℤ) (x y c : ℤ) : ℕ :=
  clampByte (convSum input width height channels kernel ksize x y c)

/-! ### The kernel registry (global tables plus the strcmp chain in main) -/

/-- Value of a C `float` global initialized from a constant expression. -/
def edge_kernel : List ℚ := [-1, -1, -1, -1, 8, -1, -1, -1, -1].map cfloat

def sharpen_kernel : List ℚ := [0, -1, 0, -1, 5, -1, 0, -1, 0].map cfloat

def blur_kernel : List ℚ :=
  [1/9, 1/9, 1/9, 1/9, 1/9, 1/9, 1/9, 1/9, 1/9].map cfloat

def gaussian_kernel : List ℚ :=
  [1/16, 2/16, 1/16, 2/16, 4/16, 2/16, 1/16, 2/16, 1/16].map cfloat

def emboss_kernel : List ℚ := [-2, -1, 0, -1, 1, 1, 0, 1, 2].map cfloat

def identity_kernel : List ℚ := [0, 0, 0, 0, 1, 0, 0, 0, 0].map cfloat

/-- The six filter names accepted by `main`. -/
def kernelNames : List String :=
  ["edge", "sharpen", "blur", "gaussian", "emboss", "identity"]

/-- The name-to-kernel registry as pairs. -/
def registry : List (String × List ℚ) :=
  [("edge", edge_kernel), ("sharpen", sharpen_kernel), ("blur", blur_kernel),
   ("gaussian", gaussian_kernel), ("emboss", emboss_kernel),
   ("identity", identity_kernel)]

/-- The `strcmp` chain in `main` selecting the kernel, `none` on the final
`else` branch (unknown filter type: error message and early return). -/
def selectKernel (ft : String) : Option (List ℚ) :=
  if ft = "edge" then some edge_kernel
  else if ft = "sharpen" then some sharpen_kernel
  else if ft = "blur" then some blur_kernel
  else if ft = "gaussian" then some gaussian_kernel
  else if ft = "emboss" then some emboss_kernel
  else if ft = "identity" then some identity_kernel
  else none

/-! ### The write lists produced by the parallel loops -/

/-- The integers `0, 1, …, n-1` as a list. -/
def rangeZ (n : ℕ) : List ℤ := (List.range n).map (fun i : ℕ => (i : ℤ))

/-- The (index, value) stores issued for one pixel (innermost channel loop). -/
def pixelWrites (input : ℤ → ℕ) (width height channels : ℤ) (kernel : List ℚ)
    (ksize : ℤ) (y x : ℤ) : List (ℤ × ℕ) :=
  (rangeZ channels.toNat).map (fun c =>
    (pixelIdx width channels x y c,
     applyFilterAt input width height channels kernel ksize x y c))

/-- The stores issued for one row of the image. -/
def rowWrites (input : ℤ → ℕ) (width height channels : ℤ) (kernel : List ℚ)
    (ksize : ℤ) (y : ℤ) : List (ℤ × ℕ) :=
  (rangeZ width.toNat).flatMap (fun x =>
    pixelWrites input width height channels kernel ksize y x)

/-- The stores issued for the contiguous row band `[startRow, endRow)`
(the body of `apply_convolution_thread`). -/
def bandWrites (input : ℤ → ℕ) (width height channels : ℤ) (kernel : List ℚ)
    (ksize : ℤ) (startRow endRow : ℤ) : List (ℤ × ℕ) :=
  (rangeZ (endRow - startRow).toNat).flatMap (fun dy =>
    rowWrites input width height channels kernel ksize (startRow + dy))

/-- All stores of the OpenMP `apply_filter` (full `[0, height)` row range;
the canonical enumeration order — the dynamic schedule permutes it). -/
def ompWrites (input : ℤ → ℕ) (width height channels : ℤ) (kernel : List ℚ)
    (ksize : ℤ) : List (ℤ × ℕ) :=
  bandWrites input width height channels kernel ksize 0 height

/-- `#define NUM_THREADS 4` from the pthreads variant. -/
def NUM_THREADS : ℤ := 4

/-- `start_row = i * rows_per_thread` with `rows_per_thread = height / N`. -/
def bandStart (numThreads height i : ℤ) : ℤ := i * (height / numThreads)

/-- `end_row = (i == N-1) ? height : (i+1) * rows_per_thread`. -/
def bandEnd (numThreads height i : ℤ) : ℤ :=
  if i = numThreads - 1 then height else (i + 1) * (height / numThreads)

/-- All stores of the pthreads `apply_filter`: the static partition of rows
into `numThreads` contiguous bands, each processed by one worker. -/
def pthreadWrites (numThreads : ℤ) (input : ℤ → ℕ) (width height channels : ℤ)
    (kernel : List ℚ) (ksize : ℤ) : List (ℤ × ℕ) :=
  (rangeZ numThreads.toNat).flatMap (fun i =>
    bandWrites input width height channels kernel ksize
      (bandStart numThreads height i) (bandEnd numThreads height i))

/-- Perform one store into a buffer. -/
def writeByte (buf : ℤ → ℕ) (w : ℤ × ℕ) : ℤ → ℕ :=
  fun j => if j = w.1 then w.2 else buf j

/-- Commit a list of stores to a buffer, in list order. -/
def commit (buf : ℤ → ℕ) (ws : List (ℤ × ℕ)) : ℤ → ℕ := ws.foldl writeByte buf

/-- The OpenMP `main` after image load: kernel lookup, then the filter's
stores; `none` when the filter name is unknown (no store is issued). -/
def runMainOMP (ft : String) (input : ℤ → ℕ) (w h c : ℤ) :
    Option (List (ℤ × ℕ)) :=
  (selectKernel ft).map (fun k => ompWrites input w h c k 3)

/-- The pthreads `main` after image load, analogously. -/
def runMainPthreads (ft : String) (input : ℤ → ℕ) (w h c : ℤ) :
    Option (List (ℤ × ℕ)) :=
  (selectKernel ft).map (fun k => pthreadWrites NUM_THREADS input w h c k 3)

/-! ### Spec-side index decomposition (inverse of `pixelIdx`) -/

def chOf (channels j : ℤ) : ℤ := j % channels

def xOf (width channels j : ℤ) : ℤ := (j / channels) % width

def yOf (width channels j : ℤ) : ℤ := (j / channels) / width

/-- The single-memory picture for the frame property: the input image
occupies `[0, S)` and the output buffer `[S, 2S)` with `S = w*h*c`;
the filter reads the input region and stores only into the output region. -/
def shiftWrites (base : ℤ) (ws : List (ℤ × ℕ)) : List (ℤ × ℕ) :=
  ws.map (fun e => (base + e.1, e.2))

/-- Run the pthreads filter over a single memory: reads at `[0, w*h*c)`,
stores at `w*h*c + pixelIdx…`. -/
def memRunPthreads (mem : ℤ → ℕ) (w h c : ℤ) (kernel : List ℚ) (ks : ℤ) :
    ℤ → ℕ :=
  commit mem (shiftWrites (w * h * c) (pthreadWrites NUM_THREADS mem w h c kernel ks))

/-- Positive-value form of the rounding evaluation rule, with the scale
exponent given explicitly. -/
theorem flp_eval_pos (p : ℕ) (q : ℚ) (L m s : ℤ)
    (hq : 0 < q) (h1 : (2 : ℚ) ^ L ≤ q) (h2 : q < 2 ^ (L + 1))
    (hs : s = L - ((p : ℤ) - 1)) (hr : rne (q / 2 ^ s) = m) :
    flp p q = (m : ℚ) * 2 ^ s := by
  subst hs
  exact flp_eval p q L m hq.ne' (by rwa [abs_of_pos hq]) (by rwa [abs_of_pos hq]) hr

/-- Dyadic values with a small numerator are exact as C float constants. -/
theorem cfloat_dyadic (q : ℚ) (m e : ℤ) (hq : q = (m : ℚ) * 2 ^ e)
    (hm : |m| < 2 ^ 24) : cfloat q = q := by
  rw [cfloat, f64, flp_fix 53 q m e hq (lt_trans hm (by norm_num)), f32,
    flp_fix 24 q m e hq hm]

theorem cfloat_zero : cfloat 0 = 0 :=
  cfloat_dyadic 0 0 0 (by norm_num) (by norm_num)

theorem cfloat_one : cfloat 1 = 1 :=
  cfloat_dyadic 1 1 0 (by norm_num) (by norm_num)

theorem cfloat_two : cfloat 2 = 2 :=
  cfloat_dyadic 2 2 0 (by norm_num) (by norm_num)

theorem cfloat_five : cfloat 5 = 5 :=
  cfloat_dyadic 5 5 0 (by norm_num) (by norm_num)

theorem cfloat_eight : cfloat 8 = 8 :=
  cfloat_dyadic 8 8 0 (by norm_num) (by norm_num)

theorem cfloat_neg_one : cfloat (-1) = -1 :=
  cfloat_dyadic (-1) (-1) 0 (by norm_num) (by norm_num)

theorem cfloat_neg_two : cfloat (-2) = -2 :=
  cfloat_dyadic (-2) (-2) 0 (by norm_num) (by norm_num)

theorem cfloat_sixteenth : cfloat (1/16) = 1/16 :=
  cfloat_dyadic (1/16) 1 (-4) (by norm_num) (by norm_num)

theorem cfloat_eighth : cfloat (2/16) = 2/16 :=
  cfloat_dyadic (2/16) 1 (-3) (by norm_num) (by norm_num)

theorem cfloat_quarter : cfloat (4/16) = 4/16 :=
  cfloat_dyadic (4/16) 1 (-2) (by norm_num) (by norm_num)

/-- The C double constant `1.0/9`. -/
theorem f64_ninth : f64 (1/9) = 8006399337547548 * (2:ℚ) ^ (-(56:ℤ)) := by
  rw [f64]
  apply flp_eval_pos 53 (1/9) (-4) 8006399337547548 (-56)
  · norm_num
  · norm_num
  · norm_num
  · norm_num
  · apply rne_eval
    rw [zpow_neg, abs_sub_lt_iff]
    constructor <;> norm_num

/-- The value stored in the `blur_kernel` table: `(float)(1.0/9)`. -/
theorem cfloat_ninth : cfloat (1/9) = 14913081 * (2:ℚ) ^ (-(27:ℤ)) := by
  rw [cfloat, f64_ninth, f32]
  apply flp_eval_pos 24 _ (-4) 14913081 (-27)
  · positivity
  · rw [zpow_neg]
    norm_num
  · rw [zpow_neg]
    norm_num
  · norm_num
  · apply rne_eval
    rw [zpow_neg, zpow_neg, abs_sub_lt_iff]
    constructor <;> norm_num

/-! ### Evaluated kernel tables -/

theorem edge_kernel_eval : edge_kernel = [-1, -1, -1, -1, 8, -1, -1, -1, -1] := by
  simp [edge_kernel, cfloat_neg_one, cfloat_eight]

theorem sharpen_kernel_eval : sharpen_kernel = [0, -1, 0, -1, 5, -1, 0, -1, 0] := by
  simp [sharpen_kernel, cfloat_zero, cfloat_neg_one, cfloat_five]

theorem blur_kernel_eval :
    blur_kernel = List.replicate 9 (14913081 * (2:ℚ) ^ (-(27:ℤ))) := by
  simp only [blur_kernel, List.map_cons, List.map_nil, cfloat_ninth]
  rfl

theorem gaussian_kernel_eval :
    gaussian_kernel = [1/16, 2/16, 1/16, 2/16, 4/16, 2/16, 1/16, 2/16, 1/16] := by
  simp only [gaussian_kernel, List.map_cons, List.map_nil, cfloat_sixteenth,
    cfloat_eighth, cfloat_quarter]

theorem emboss_kernel_eval : emboss_kernel = [-2, -1, 0, -1, 1, 1, 0, 1, 2] := by
  simp [emboss_kernel, cfloat_neg_two, cfloat_neg_one, cfloat_zero, cfloat_one,
    cfloat_two]

theorem identity_kernel_eval : identity_kernel = [0, 0, 0, 0, 1, 0, 0, 0, 0] := by
  simp [identity_kernel, cfloat_zero, cfloat_one]

/-! ### Clamping lemmas -/

theorem clampCoord_id (v bound : ℤ) (h0 : 0 ≤ v) (h1 : v < bound) :
    clampCoord v bound = v := by
  simp only [clampCoord]
  rw [if_neg (not_lt.mpr h0), if_neg (not_le.mpr h1)]

theorem clampCoord_low (v bound : ℤ) (hv : v < 0) (hb : 1 ≤ bound) :
    clampCoord v bound = 0 := by
  simp only [clampCoord]
  rw [if_pos hv, if_neg (not_le.mpr (by omega))]

theorem clampCoord_high (v bound : ℤ) (hv : bound ≤ v) (hb : 1 ≤ bound) :
    clampCoord v bound = bound - 1 := by
  simp only [clampCoord]
  rw [if_neg (not_lt.mpr (by omega)), if_pos hv]

theorem clampCoord_mem (v bound : ℤ) (hb : 1 ≤ bound) :
    0 ≤ clampCoord v bound ∧ clampCoord v bound < bound := by
  simp only [clampCoord]
  split_ifs <;> omega

/-! ### Exactness helpers for binary32 -/

theorem f32_zero : f32 0 = 0 := flp_zero 24

theorem f32_byte (v : ℕ) (h : v ≤ 255) : f32 ((v : ℕ) : ℚ) = v := by
  apply flp_fix 24 _ (v : ℤ) 0
  · push_cast
    ring
  · rw [abs_of_nonneg (by positivity)]
    exact_mod_cast lt_of_le_of_lt h (by norm_num)

theorem f32_dyadic (m e : ℤ) (hm : |m| < 2 ^ 24) :
    f32 ((m : ℚ) * 2 ^ e) = (m : ℚ) * 2 ^ e :=
  flp_fix 24 _ m e rfl hm

/-! ### Unfolding the 3×3 convolution loop nest -/

/-- One iteration of the inner kernel loop for a 3×3 kernel. -/
def convTerm (input : ℤ → ℕ) (width height channels : ℤ) (kernel : List ℚ)
    (x y c ky kx : ℤ) (s : ℚ) : ℚ :=
  f32 (s + f32 (f32 ((input (pixelIdx width channels (clampCoord (x + kx) width)
    (clampCoord (y + ky) height) c) : ℚ)) * kernelVal kernel (kernelIdx 1 3 ky kx)))

theorem convSum_three (input : ℤ → ℕ) (w h c : ℤ) (k : List ℚ) (x y ch : ℤ) :
    convSum input w h c k 3 x y ch =
      convTerm input w h c k x y ch 1 1 (convTerm input w h c k x y ch 1 0
        (convTerm input w h c k x y ch 1 (-1) (convTerm input w h c k x y ch 0 1
          (convTerm input w h c k x y ch 0 0 (convTerm input w h c k x y ch 0 (-1)
            (convTerm input w h c k x y ch (-1) 1 (convTerm input w h c k x y ch (-1) 0
              (convTerm input w h c k x y ch (-1) (-1) 0)))))))) := by
  rfl

/-! ### Per-pixel facts for specific kernels -/

theorem convSum_identity (input : ℤ → ℕ) (w h c : ℤ) (x y ch : ℤ)
    (hin : ∀ j, input j ≤ 255) (hx : 0 ≤ x) (hx2 : x < w) (hy : 0 ≤ y) (hy2 : y < h) :
    convSum input w h c identity_kernel 3 x y ch = input (pixelIdx w c x y ch) := by
  rw [convSum_three, identity_kernel_eval]
  simp only [convTerm, kernelIdx, kernelVal]
  norm_num
  simp only [List.getD, show Int.toNat 0 = 0 from rfl, show Int.toNat 1 = 1 from rfl,
    show Int.toNat 2 = 2 from rfl, show Int.toNat 3 = 3 from rfl,
    show Int.toNat 4 = 4 from rfl, show Int.toNat 5 = 5 from rfl,
    show Int.toNat 6 = 6 from rfl, show Int.toNat 7 = 7 from rfl,
    show Int.toNat 8 = 8 from rfl]
  simp [f32_zero, mul_zero, mul_one, add_zero, zero_add,
    clampCoord_id x w hx hx2, clampCoord_id y h hy hy2, f32_byte, hin]

theorem f32_int (m : ℤ) (h : |m| < 2 ^ 24) : f32 ((m : ℤ) : ℚ) = ((m : ℤ) : ℚ) := by
  apply flp_fix 24 _ m 0
  · norm_num
  · exact h

/-- One convolution term over a constant-valued image, for a kernel whose
coefficient at this offset is the dyadic `a * 2 ^ (-4)`. -/
theorem convTerm_const (v : ℕ) (hv : v ≤ 255) (w h c x y ch ky kx : ℤ)
    (k : List ℚ) (a : ℤ)
    (hk : kernelVal k (kernelIdx 1 3 ky kx) = (a : ℚ) * 2 ^ (-(4:ℤ)))
    (ha : 0 ≤ a) (ha2 : a ≤ 16) (s : ℚ) :
    convTerm (fun _ => v) w h c k x y ch ky kx s
      = f32 (s + ((a * v : ℤ) : ℚ) * 2 ^ (-(4:ℤ))) := by
  simp only [convTerm, hk]
  rw [f32_byte v hv]
  have hp : ((v : ℕ) : ℚ) * ((a : ℚ) * 2 ^ (-(4:ℤ)))
      = ((a * v : ℤ) : ℚ) * 2 ^ (-(4:ℤ)) := by
    push_cast
    ring
  rw [hp, f32_dyadic (a * v) (-(4:ℤ))]
  rw [abs_of_nonneg (by positivity)]
  have hvz : (v : ℤ) ≤ 255 := by exact_mod_cast hv
  nlinarith

/-- Adding one exactly-representable sixteenth-grid term to an
exactly-representable partial sum is exact in binary32. -/
theorem gauss_step (v : ℕ) (hv : v ≤ 255) (ca a : ℤ)
    (hca : 0 ≤ ca) (hca2 : ca ≤ 16) (ha : 0 ≤ a) (ha2 : a ≤ 16) :
    f32 (((ca * v : ℤ) : ℚ) * 2 ^ (-(4:ℤ)) + ((a * v : ℤ) : ℚ) * 2 ^ (-(4:ℤ)))
      = (((ca + a) * v : ℤ) : ℚ) * 2 ^ (-(4:ℤ)) := by
  have hm : ((ca * v : ℤ) : ℚ) * 2 ^ (-(4:ℤ)) + ((a * v : ℤ) : ℚ) * 2 ^ (-(4:ℤ))
      = (((ca + a) * v : ℤ) : ℚ) * 2 ^ (-(4:ℤ)) := by
    push_cast
    ring
  rw [hm]
  apply f32_dyadic
  rw [abs_of_nonneg (by positivity)]
  have hvz : (v : ℤ) ≤ 255 := by exact_mod_cast hv
  nlinarith

/-- Convolving a constant-valued image with the gaussian kernel is exact:
every accumulated partial sum is a small multiple of `v/16`, hence a
binary32 fixed point, and the coefficients sum to one. -/
theorem convSum_gaussian_const (v : ℕ) (hv : v ≤ 255) (w h c x y ch : ℤ) :
    convSum (fun _ => v) w h c gaussian_kernel 3 x y ch = (v : ℚ) := by
  have hg := gaussian_kernel_eval
  have hc0 : kernelVal gaussian_kernel (kernelIdx 1 3 (-1) (-1)) = ((1:ℤ) : ℚ) * 2 ^ (-(4:ℤ)) := by
    rw [hg]
    simp [kernelVal, kernelIdx, List.getD]
    norm_num [zpow_neg]
  have hc1 : kernelVal gaussian_kernel (kernelIdx 1 3 (-1) 0) = ((2:ℤ) : ℚ) * 2 ^ (-(4:ℤ)) := by
    rw [hg]
    simp [kernelVal, kernelIdx, List.getD]
    norm_num [zpow_neg]
  have hc2 : kernelVal gaussian_kernel (kernelIdx 1 3 (-1) 1) = ((1:ℤ) : ℚ) * 2 ^ (-(4:ℤ)) := by
    rw [hg]
    simp [kernelVal, kernelIdx, List.getD]
    norm_num [zpow_neg]
  have hc3 : kernelVal gaussian_kernel (kernelIdx 1 3 0 (-1)) = ((2:ℤ) : ℚ) * 2 ^ (-(4:ℤ)) := by
    rw [hg]
    simp [kernelVal, kernelIdx, List.getD]
    norm_num [zpow_neg]
  have hc4 : kernelVal gaussian_kernel (kernelIdx 1 3 0 0) = ((4:ℤ) : ℚ) * 2 ^ (-(4:ℤ)) := by
    rw [hg]
    simp [kernelVal, kernelIdx, List.getD]
    norm_num [zpow_neg]
  have hc5 : kernelVal gaussian_kernel (kernelIdx 1 3 0 1) = ((2:ℤ) : ℚ) * 2 ^ (-(4:ℤ)) := by
    rw [hg]
    simp [kernelVal, kernelIdx, List.getD]
    norm_num [zpow_neg]
  have hc6 : kernelVal gaussian_kernel (kernelIdx 1 3 1 (-1)) = ((1:ℤ) : ℚ) * 2 ^ (-(4:ℤ)) := by
    rw [hg]
    simp [kernelVal, kernelIdx, List.getD]
    norm_num [zpow_neg]
  have hc7 : kernelVal gaussian_kernel (kernelIdx 1 3 1 0) = ((2:ℤ) : ℚ) * 2 ^ (-(4:ℤ)) := by
    rw [hg]
    simp [kernelVal, kernelIdx, List.getD]
    norm_num [zpow_neg]
  have hc8 : kernelVal gaussian_kernel (kernelIdx 1 3 1 1) = ((1:ℤ) : ℚ) * 2 ^ (-(4:ℤ)) := by
    rw [hg]
    simp [kernelVal, kernelIdx, List.getD]
    norm_num [zpow_neg]
  rw [convSum_three]
  rw [convTerm_const v hv w h c x y ch (-1) (-1) _ 1 hc0 (by norm_num) (by norm_num)]
  rw [convTerm_const v hv w h c x y ch (-1) 0 _ 2 hc1 (by norm_num) (by norm_num)]
  rw [convTerm_const v hv w h c x y ch (-1) 1 _ 1 hc2 (by norm_num) (by norm_num)]
  rw [convTerm_const v hv w h c x y ch 0 (-1) _ 2 hc3 (by norm_num) (by norm_num)]
  rw [convTerm_const v hv w h c x y ch 0 0 _ 4 hc4 (by norm_num) (by norm_num)]
  rw [convTerm_const v hv w h c x y ch 0 1 _ 2 hc5 (by norm_num) (by norm_num)]
  rw [convTerm_const v hv w h c x y ch 1 (-1) _ 1 hc6 (by norm_num) (by norm_num)]
  rw [convTerm_const v hv w h c x y ch 1 0 _ 2 hc7 (by norm_num) (by norm_num)]
  rw [convTerm_const v hv w h c x y ch 1 1 _ 1 hc8 (by norm_num) (by norm_num)]
  have hvz : (v : ℤ) ≤ 255 := by exact_mod_cast hv
  have hb1 : |(1 * (v : ℤ))| < 2 ^ 24 := by
    rw [abs_of_nonneg (by positivity)]
    nlinarith
  rw [zero_add, f32_dyadic (1 * (v : ℤ)) (-(4:ℤ)) hb1]
  rw [gauss_step v hv 1 2 (by norm_num) (by norm_num) (by norm_num) (by norm_num)]
  rw [gauss_step v hv (1+2) 1 (by norm_num) (by norm_num) (by norm_num) (by norm_num)]
  rw [gauss_step v hv (1+2+1) 2 (by norm_num) (by norm_num) (by norm_num) (by norm_num)]
  rw [gauss_step v hv (1+2+1+2) 4 (by norm_num) (by norm_num) (by norm_num) (by norm_num)]
  rw [gauss_step v hv (1+2+1+2+4) 2 (by norm_num) (by norm_num) (by norm_num) (by norm_num)]
  rw [gauss_step v hv (1+2+1+2+4+2) 1 (by norm_num) (by norm_num) (by norm_num) (by norm_num)]
  rw [gauss_step v hv (1+2+1+2+4+2+1) 2 (by norm_num) (by norm_num) (by norm_num) (by norm_num)]
  rw [gauss_step v hv (1+2+1+2+4+2+1+2) 1 (by norm_num) (by norm_num) (by norm_num) (by norm_num)]
  rw [zpow_neg]
  push_cast
  ring_nf

/-! ### The final clamp-and-truncate store on exact byte values -/

theorem ratTrunc_natCast (v : ℕ) : ratTrunc ((v : ℕ) : ℚ) = v := by
  rw [ratTrunc, if_neg (not_lt.mpr (by positivity))]
  exact_mod_cast Int.floor_natCast v

theorem clampByte_byte (v : ℕ) (hv : v ≤ 255) : clampByte ((v : ℕ) : ℚ) = v := by
  rw [clampByte]
  have h1 : min (255 : ℚ) ((v : ℕ) : ℚ) = ((v : ℕ) : ℚ) :=
    min_eq_right (by exact_mod_cast hv)
  have h2 : max (0 : ℚ) ((v : ℕ) : ℚ) = ((v : ℕ) : ℚ) :=
    max_eq_right (by positivity)
  rw [h1, h2, ratTrunc_natCast]
  exact Int.toNat_natCast v

/-- Per-pixel identity law: with the identity kernel the stored byte is
exactly the source byte at the same position. -/
theorem applyFilterAt_identity (input : ℤ → ℕ) (w h c : ℤ) (x y ch : ℤ)
    (hin : ∀ j, input j ≤ 255) (hx : 0 ≤ x) (hx2 : x < w) (hy : 0 ≤ y) (hy2 : y < h) :
    applyFilterAt input w h c identity_kernel 3 x y ch = input (pixelIdx w c x y ch) := by
  rw [applyFilterAt, convSum_identity input w h c x y ch hin hx hx2 hy hy2]
  exact clampByte_byte _ (hin _)

/-- Per-pixel gaussian law on constant images: the stored byte is `v`. -/
theorem applyFilterAt_gaussian_const (v : ℕ) (hv : v ≤ 255) (w h c x y ch : ℤ) :
    applyFilterAt (fun _ => v) w h c gaussian_kernel 3 x y ch = v := by
  rw [applyFilterAt, convSum_gaussian_const v hv w h c x y ch]
  exact clampByte_byte v hv

/-! ### Concrete binary32 evaluation: blur on a constant image of value 3 -/

theorem abs_lit_lt (m : ℤ) (h0 : 0 ≤ m) (h1 : m < 2 ^ 24) : |m| < 2 ^ 24 := by
  rwa [abs_of_nonneg h0]

/-- Concrete-value form of the rounding evaluation for binary32. -/
theorem f32_concrete (q : ℚ) (L m s : ℤ) (hq : 0 < q)
    (h1 : (2:ℚ) ^ L ≤ q) (h2 : q < 2 ^ (L + 1)) (hs : s = L - 23)
    (hr : rne (q / 2 ^ s) = m) : f32 q = (m : ℚ) * 2 ^ s := by
  rw [f32]
  exact flp_eval_pos 24 q L m s hq h1 h2 (by omega) hr

theorem kernelVal_blur (ky kx : ℤ) (h1 : -1 ≤ ky) (h2 : ky ≤ 1)
    (h3 : -1 ≤ kx) (h4 : kx ≤ 1) :
    kernelVal blur_kernel (kernelIdx 1 3 ky kx) = 14913081 * (2:ℚ) ^ (-(27:ℤ)) := by
  rw [blur_kernel_eval]
  interval_cases ky <;> interval_cases kx <;>
    simp [kernelVal, kernelIdx, List.getD, List.replicate]

theorem blur_term3 : f32 (44739243 * (2:ℚ) ^ (-(27:ℤ)))
    = 11184811 * (2:ℚ) ^ (-(25:ℤ)) := by
  have h := f32_concrete (44739243 * (2:ℚ) ^ (-(27:ℤ))) (-2) 11184811 (-25)
    (by rw [zpow_neg]; positivity)
    (by rw [zpow_neg, zpow_neg]; norm_num)
    (by rw [zpow_neg]; norm_num)
    (by norm_num)
    (by apply rne_eval
        rw [zpow_neg, zpow_neg, abs_sub_lt_iff]
        constructor <;> norm_num)
  push_cast at h
  exact h

theorem blur_conv_term (ky kx : ℤ) (h1 : -1 ≤ ky) (h2 : ky ≤ 1)
    (h3 : -1 ≤ kx) (h4 : kx ≤ 1) (s : ℚ) :
    convTerm (fun _ => (3:ℕ)) 1 1 1 blur_kernel 0 0 0 ky kx s
      = f32 (s + 11184811 * (2:ℚ) ^ (-(25:ℤ))) := by
  simp only [convTerm, kernelVal_blur ky kx h1 h2 h3 h4]
  rw [f32_byte 3 (by norm_num)]
  have hq : ((3:ℕ):ℚ) * (14913081 * (2:ℚ) ^ (-(27:ℤ)))
      = 44739243 * (2:ℚ) ^ (-(27:ℤ)) := by
    push_cast
    ring
  rw [hq, blur_term3]

theorem blur_acc1 : f32 ((0:ℚ) + 11184811 * (2:ℚ) ^ (-(25:ℤ)))
    = 11184811 * (2:ℚ) ^ (-(25:ℤ)) := by
  rw [zero_add]
  have h := f32_dyadic 11184811 (-(25:ℤ)) (abs_lit_lt _ (by norm_num) (by norm_num))
  push_cast at h
  exact h

theorem blur_acc2 : f32 (11184811 * (2:ℚ) ^ (-(25:ℤ)) + 11184811 * (2:ℚ) ^ (-(25:ℤ)))
    = 11184811 * (2:ℚ) ^ (-(24:ℤ)) := by
  have hq : 11184811 * (2:ℚ) ^ (-(25:ℤ)) + 11184811 * (2:ℚ) ^ (-(25:ℤ))
      = 11184811 * (2:ℚ) ^ (-(24:ℤ)) := by
    simp only [zpow_neg]
    norm_num
  rw [hq]
  have h := f32_dyadic 11184811 (-(24:ℤ)) (abs_lit_lt _ (by norm_num) (by norm_num))
  push_cast at h
  exact h

theorem blur_acc3 : f32 (11184811 * (2:ℚ) ^ (-(24:ℤ)) + 11184811 * (2:ℚ) ^ (-(25:ℤ)))
    = 8388608 * (2:ℚ) ^ (-(23:ℤ)) := by
  have hq : 11184811 * (2:ℚ) ^ (-(24:ℤ)) + 11184811 * (2:ℚ) ^ (-(25:ℤ))
      = 33554433 * (2:ℚ) ^ (-(25:ℤ)) := by
    simp only [zpow_neg]
    norm_num
  rw [hq]
  have h := f32_concrete (33554433 * (2:ℚ) ^ (-(25:ℤ))) 0 8388608 (-(23:ℤ))
    (by positivity)
    (by simp only [zpow_neg]; norm_num)
    (by simp only [zpow_neg]; norm_num)
    (by norm_num)
    (by apply rne_eval
        simp only [zpow_neg, abs_sub_lt_iff]
        constructor <;> norm_num)
  push_cast at h
  exact h

theorem blur_acc4 : f32 (8388608 * (2:ℚ) ^ (-(23:ℤ)) + 11184811 * (2:ℚ) ^ (-(25:ℤ)))
    = 11184811 * (2:ℚ) ^ (-(23:ℤ)) := by
  have hq : 8388608 * (2:ℚ) ^ (-(23:ℤ)) + 11184811 * (2:ℚ) ^ (-(25:ℤ))
      = 44739243 * (2:ℚ) ^ (-(25:ℤ)) := by
    simp only [zpow_neg]
    norm_num
  rw [hq]
  have h := f32_concrete (44739243 * (2:ℚ) ^ (-(25:ℤ))) 0 11184811 (-(23:ℤ))
    (by positivity)
    (by simp only [zpow_neg]; norm_num)
    (by simp only [zpow_neg]; norm_num)
    (by norm_num)
    (by apply rne_eval
        simp only [zpow_neg, abs_sub_lt_iff]
        constructor <;> norm_num)
  push_cast at h
  exact h

theorem blur_acc5 : f32 (11184811 * (2:ℚ) ^ (-(23:ℤ)) + 11184811 * (2:ℚ) ^ (-(25:ℤ)))
    = 13981014 * (2:ℚ) ^ (-(23:ℤ)) := by
  have hq : 11184811 * (2:ℚ) ^ (-(23:ℤ)) + 11184811 * (2:ℚ) ^ (-(25:ℤ))
      = 55924055 * (2:ℚ) ^ (-(25:ℤ)) := by
    simp only [zpow_neg]
    norm_num
  rw [hq]
  have h := f32_concrete (55924055 * (2:ℚ) ^ (-(25:ℤ))) 0 13981014 (-(23:ℤ))
    (by positivity)
    (by simp only [zpow_neg]; norm_num)
    (by simp only [zpow_neg]; norm_num)
    (by norm_num)
    (by apply rne_eval
        simp only [zpow_neg, abs_sub_lt_iff]
        constructor <;> norm_num)
  push_cast at h
  exact h

theorem blur_acc6 : f32 (13981014 * (2:ℚ) ^ (-(23:ℤ)) + 11184811 * (2:ℚ) ^ (-(25:ℤ)))
    = 8388608 * (2:ℚ) ^ (-(22:ℤ)) := by
  have hq : 13981014 * (2:ℚ) ^ (-(23:ℤ)) + 11184811 * (2:ℚ) ^ (-(25:ℤ))
      = 67108867 * (2:ℚ) ^ (-(25:ℤ)) := by
    simp only [zpow_neg]
    norm_num
  rw [hq]
  have h := f32_concrete (67108867 * (2:ℚ) ^ (-(25:ℤ))) 1 8388608 (-(22:ℤ))
    (by positivity)
    (by simp only [zpow_neg]; norm_num)
    (by simp only [zpow_neg]; norm_num)
    (by norm_num)
    (by apply rne_eval
        simp only [zpow_neg, abs_sub_lt_iff]
        constructor <;> norm_num)
  push_cast at h
  exact h

theorem blur_acc7 : f32 (8388608 * (2:ℚ) ^ (-(22:ℤ)) + 11184811 * (2:ℚ) ^ (-(25:ℤ)))
    = 9786709 * (2:ℚ) ^ (-(22:ℤ)) := by
  have hq : 8388608 * (2:ℚ) ^ (-(22:ℤ)) + 11184811 * (2:ℚ) ^ (-(25:ℤ))
      = 78293675 * (2:ℚ) ^ (-(25:ℤ)) := by
    simp only [zpow_neg]
    norm_num
  rw [hq]
  have h := f32_concrete (78293675 * (2:ℚ) ^ (-(25:ℤ))) 1 9786709 (-(22:ℤ))
    (by positivity)
    (by simp only [zpow_neg]; norm_num)
    (by simp only [zpow_neg]; norm_num)
    (by norm_num)
    (by apply rne_eval
        simp only [zpow_neg, abs_sub_lt_iff]
        constructor <;> norm_num)
  push_cast at h
  exact h

theorem blur_acc8 : f32 (9786709 * (2:ℚ) ^ (-(22:ℤ)) + 11184811 * (2:ℚ) ^ (-(25:ℤ)))
    = 11184810 * (2:ℚ) ^ (-(22:ℤ)) := by
  have hq : 9786709 * (2:ℚ) ^ (-(22:ℤ)) + 11184811 * (2:ℚ) ^ (-(25:ℤ))
      = 89478483 * (2:ℚ) ^ (-(25:ℤ)) := by
    simp only [zpow_neg]
    norm_num
  rw [hq]
  have h := f32_concrete (89478483 * (2:ℚ) ^ (-(25:ℤ))) 1 11184810 (-(22:ℤ))
    (by positivity)
    (by simp only [zpow_neg]; norm_num)
    (by simp only [zpow_neg]; norm_num)
    (by norm_num)
    (by apply rne_eval
        simp only [zpow_neg, abs_sub_lt_iff]
        constructor <;> norm_num)
  push_cast at h
  exact h

theorem blur_acc9 : f32 (11184810 * (2:ℚ) ^ (-(22:ℤ)) + 11184811 * (2:ℚ) ^ (-(25:ℤ)))
    = 12582911 * (2:ℚ) ^ (-(22:ℤ)) := by
  have hq : 11184810 * (2:ℚ) ^ (-(22:ℤ)) + 11184811 * (2:ℚ) ^ (-(25:ℤ))
      = 100663291 * (2:ℚ) ^ (-(25:ℤ)) := by
    simp only [zpow_neg]
    norm_num
  rw [hq]
  have h := f32_concrete (100663291 * (2:ℚ) ^ (-(25:ℤ))) 1 12582911 (-(22:ℤ))
    (by positivity)
    (by simp only [zpow_neg]; norm_num)
    (by simp only [zpow_neg]; norm_num)
    (by norm_num)
    (by apply rne_eval
        simp only [zpow_neg, abs_sub_lt_iff]
        constructor <;> norm_num)
  push_cast at h
  exact h

/-- The program's blur output on a 1×1 image of constant value 3: the nine
rounded accumulations land at `12582911 * 2 ^ (-22) ≈ 2.9999998`, which the
final truncation turns into the byte 2, not 3. -/
theorem blur_out_const3 :
    applyFilterAt (fun _ => (3:ℕ)) 1 1 1 blur_kernel 3 0 0 0 = 2 := by
  rw [applyFilterAt, convSum_three]
  rw [blur_conv_term (-1) (-1) (by norm_num) (by norm_num) (by norm_num) (by norm_num)]
  rw [blur_conv_term (-1) 0 (by norm_num) (by norm_num) (by norm_num) (by norm_num)]
  rw [blur_conv_term (-1) 1 (by norm_num) (by norm_num) (by norm_num) (by norm_num)]
  rw [blur_conv_term 0 (-1) (by norm_num) (by norm_num) (by norm_num) (by norm_num)]
  rw [blur_conv_term 0 0 (by norm_num) (by norm_num) (by norm_num) (by norm_num)]
  rw [blur_conv_term 0 1 (by norm_num) (by norm_num) (by norm_num) (by norm_num)]
  rw [blur_conv_term 1 (-1) (by norm_num) (by norm_num) (by norm_num) (by norm_num)]
  rw [blur_conv_term 1 0 (by norm_num) (by norm_num) (by norm_num) (by norm_num)]
  rw [blur_conv_term 1 1 (by norm_num) (by norm_num) (by norm_num) (by norm_num)]
  rw [blur_acc1, blur_acc2, blur_acc3, blur_acc4, blur_acc5, blur_acc6,
    blur_acc7, blur_acc8, blur_acc9]
  rw [clampByte]
  have h1 : min (255:ℚ) (12582911 * (2:ℚ) ^ (-(22:ℤ))) = 12582911 * (2:ℚ) ^ (-(22:ℤ)) := by
    apply min_eq_right
    simp only [zpow_neg]
    norm_num
  have h2 : max (0:ℚ) (12582911 * (2:ℚ) ^ (-(22:ℤ))) = 12582911 * (2:ℚ) ^ (-(22:ℤ)) := by
    apply max_eq_right
    positivity
  rw [h1, h2, ratTrunc, if_neg (not_lt.mpr (by positivity))]
  have h3 : ⌊(12582911 * (2:ℚ) ^ (-(22:ℤ)))⌋ = 2 := by
    rw [Int.floor_eq_iff]
    constructor
    · push_cast
      simp only [zpow_neg]
      norm_num
    · push_cast
      simp only [zpow_neg]
      norm_num
  rw [h3]
  rfl

/-! ### The concrete 3×3 border-clamping example image -/

/-- The single-channel example image `[[10,20,30],[40,50,60],[70,80,90]]`. -/
def img3 : ℤ → ℕ := fun j => [10, 20, 30, 40, 50, 60, 70, 80, 90].getD j.toNat 0

theorem edge_term_mm (s : ℚ) :
    convTerm img3 3 3 1 edge_kernel 1 1 0 (-1) (-1) s = f32 (s + (-10)) := by
  rw [convTerm, edge_kernel_eval]
  norm_num [img3, pixelIdx, clampCoord, List.getD, kernelVal, kernelIdx,
    show Int.toNat 0 = 0 from rfl, show Int.toNat 1 = 1 from rfl,
    show Int.toNat 2 = 2 from rfl, show Int.toNat 3 = 3 from rfl,
    show Int.toNat 4 = 4 from rfl, show Int.toNat 5 = 5 from rfl,
    show Int.toNat 6 = 6 from rfl, show Int.toNat 7 = 7 from rfl,
    show Int.toNat 8 = 8 from rfl]
  have hv : f32 ((10:ℕ):ℚ) = ((10:ℕ):ℚ) := f32_byte 10 (by norm_num)
  push_cast at hv
  rw [hv]
  have hp := f32_int (-10) (by decide)
  push_cast at hp
  rw [hp]

theorem edge_term_mz (s : ℚ) :
    convTerm img3 3 3 1 edge_kernel 1 1 0 (-1) 0 s = f32 (s + (-20)) := by
  rw [convTerm, edge_kernel_eval]
  norm_num [img3, pixelIdx, clampCoord, List.getD, kernelVal, kernelIdx,
    show Int.toNat 0 = 0 from rfl, show Int.toNat 1 = 1 from rfl,
    show Int.toNat 2 = 2 from rfl, show Int.toNat 3 = 3 from rfl,
    show Int.toNat 4 = 4 from rfl, show Int.toNat 5 = 5 from rfl,
    show Int.toNat 6 = 6 from rfl, show Int.toNat 7 = 7 from rfl,
    show Int.toNat 8 = 8 from rfl]
  have hv : f32 ((20:ℕ):ℚ) = ((20:ℕ):ℚ) := f32_byte 20 (by norm_num)
  push_cast at hv
  rw [hv]
  have hp := f32_int (-20) (by decide)
  push_cast at hp
  rw [hp]

theorem edge_term_mp (s : ℚ) :
    convTerm img3 3 3 1 edge_kernel 1 1 0 (-1) 1 s = f32 (s + (-30)) := by
  rw [convTerm, edge_kernel_eval]
  norm_num [img3, pixelIdx, clampCoord, List.getD, kernelVal, kernelIdx,
    show Int.toNat 0 = 0 from rfl, show Int.toNat 1 = 1 from rfl,
    show Int.toNat 2 = 2 from rfl, show Int.toNat 3 = 3 from rfl,
    show Int.toNat 4 = 4 from rfl, show Int.toNat 5 = 5 from rfl,
    show Int.toNat 6 = 6 from rfl, show Int.toNat 7 = 7 from rfl,
    show Int.toNat 8 = 8 from rfl]
  have hv : f32 ((30:ℕ):ℚ) = ((30:ℕ):ℚ) := f32_byte 30 (by norm_num)
  push_cast at hv
  rw [hv]
  have hp := f32_int (-30) (by decide)
  push_cast at hp
  rw [hp]

theorem edge_term_zm (s : ℚ) :
    convTerm img3 3 3 1 edge_kernel 1 1 0 0 (-1) s = f32 (s + (-40)) := by
  rw [convTerm, edge_kernel_eval]
  norm_num [img3, pixelIdx, clampCoord, List.getD, kernelVal, kernelIdx,
    show Int.toNat 0 = 0 from rfl, show Int.toNat 1 = 1 from rfl,
    show Int.toNat 2 = 2 from rfl, show Int.toNat 3 = 3 from rfl,
    show Int.toNat 4 = 4 from rfl, show Int.toNat 5 = 5 from rfl,
    show Int.toNat 6 = 6 from rfl, show Int.toNat 7 = 7 from rfl,
    show Int.toNat 8 = 8 from rfl]
  have hv : f32 ((40:ℕ):ℚ) = ((40:ℕ):ℚ) := f32_byte 40 (by norm_num)
  push_cast at hv
  rw [hv]
  have hp := f32_int (-40) (by decide)
  push_cast at hp
  rw [hp]

theorem edge_term_zz (s : ℚ) :
    convTerm img3 3 3 1 edge_kernel 1 1 0 0 0 s = f32 (s + 400) := by
  rw [convTerm, edge_kernel_eval]
  norm_num [img3, pixelIdx, clampCoord, List.getD, kernelVal, kernelIdx,
    show Int.toNat 0 = 0 from rfl, show Int.toNat 1 = 1 from rfl,
    show Int.toNat 2 = 2 from rfl, show Int.toNat 3 = 3 from rfl,
    show Int.toNat 4 = 4 from rfl, show Int.toNat 5 = 5 from rfl,
    show Int.toNat 6 = 6 from rfl, show Int.toNat 7 = 7 from rfl,
    show Int.toNat 8 = 8 from rfl]
  have hv : f32 ((50:ℕ):ℚ) = ((50:ℕ):ℚ) := f32_byte 50 (by norm_num)
  push_cast at hv
  rw [hv]
  have hp := f32_int (400) (by decide)
  push_cast at hp
  norm_num
  rw [hp]

theorem edge_term_zp (s : ℚ) :
    convTerm img3 3 3 1 edge_kernel 1 1 0 0 1 s = f32 (s + (-60)) := by
  rw [convTerm, edge_kernel_eval]
  norm_num [img3, pixelIdx, clampCoord, List.getD, kernelVal, kernelIdx,
    show Int.toNat 0 = 0 from rfl, show Int.toNat 1 = 1 from rfl,
    show Int.toNat 2 = 2 from rfl, show Int.toNat 3 = 3 from rfl,
    show Int.toNat 4 = 4 from rfl, show Int.toNat 5 = 5 from rfl,
    show Int.toNat 6 = 6 from rfl, show Int.toNat 7 = 7 from rfl,
    show Int.toNat 8 = 8 from rfl]
  have hv : f32 ((60:ℕ):ℚ) = ((60:ℕ):ℚ) := f32_byte 60 (by norm_num)
  push_cast at hv
  rw [hv]
  have hp := f32_int (-60) (by decide)
  push_cast at hp
  rw [hp]

theorem edge_term_pm (s : ℚ) :
    convTerm img3 3 3 1 edge_kernel 1 1 0 1 (-1) s = f32 (s + (-70)) := by
  rw [convTerm, edge_kernel_eval]
  norm_num [img3, pixelIdx, clampCoord, List.getD, kernelVal, kernelIdx,
    show Int.toNat 0 = 0 from rfl, show Int.toNat 1 = 1 from rfl,
    show Int.toNat 2 = 2 from rfl, show Int.toNat 3 = 3 from rfl,
    show Int.toNat 4 = 4 from rfl, show Int.toNat 5 = 5 from rfl,
    show Int.toNat 6 = 6 from rfl, show Int.toNat 7 = 7 from rfl,
    show Int.toNat 8 = 8 from rfl]
  have hv : f32 ((70:ℕ):ℚ) = ((70:ℕ):ℚ) := f32_byte 70 (by norm_num)
  push_cast at hv
  rw [hv]
  have hp := f32_int (-70) (by decide)
  push_cast at hp
  rw [hp]

theorem edge_term_pz (s : ℚ) :
    convTerm img3 3 3 1 edge_kernel 1 1 0 1 0 s = f32 (s + (-80)) := by
  rw [convTerm, edge_kernel_eval]
  norm_num [img3, pixelIdx, clampCoord, List.getD, kernelVal, kernelIdx,
    show Int.toNat 0 = 0 from rfl, show Int.toNat 1 = 1 from rfl,
    show Int.toNat 2 = 2 from rfl, show Int.toNat 3 = 3 from rfl,
    show Int.toNat 4 = 4 from rfl, show Int.toNat 5 = 5 from rfl,
    show Int.toNat 6 = 6 from rfl, show Int.toNat 7 = 7 from rfl,
    show Int.toNat 8 = 8 from rfl]
  have hv : f32 ((80:ℕ):ℚ) = ((80:ℕ):ℚ) := f32_byte 80 (by norm_num)
  push_cast at hv
  rw [hv]
  have hp := f32_int (-80) (by decide)
  push_cast at hp
  rw [hp]

theorem edge_term_pp (s : ℚ) :
    convTerm img3 3 3 1 edge_kernel 1 1 0 1 1 s = f32 (s + (-90)) := by
  rw [convTerm, edge_kernel_eval]
  norm_num [img3, pixelIdx, clampCoord, List.getD, kernelVal, kernelIdx,
    show Int.toNat 0 = 0 from rfl, show Int.toNat 1 = 1 from rfl,
    show Int.toNat 2 = 2 from rfl, show Int.toNat 3 = 3 from rfl,
    show Int.toNat 4 = 4 from rfl, show Int.toNat 5 = 5 from rfl,
    show Int.toNat 6 = 6 from rfl, show Int.toNat 7 = 7 from rfl,
    show Int.toNat 8 = 8 from rfl]
  have hv : f32 ((90:ℕ):ℚ) = ((90:ℕ):ℚ) := f32_byte 90 (by norm_num)
  push_cast at hv
  rw [hv]
  have hp := f32_int (-90) (by decide)
  push_cast at hp
  rw [hp]

theorem edge_acc1 : f32 ((0:ℚ) + (-10)) = ((-10):ℚ) := by
  have hq : ((0:ℚ) + (-10)) = ((-10):ℚ) := by norm_num
  rw [hq]
  have h := f32_int ((-10)) (by decide)
  push_cast at h
  exact h

theorem edge_acc2 : f32 (((-10):ℚ) + (-20)) = ((-30):ℚ) := by
  have hq : (((-10):ℚ) + (-20)) = ((-30):ℚ) := by norm_num
  rw [hq]
  have h := f32_int ((-30)) (by decide)
  push_cast at h
  exact h

theorem edge_acc3 : f32 (((-30):ℚ) + (-30)) = ((-60):ℚ) := by
  have hq : (((-30):ℚ) + (-30)) = ((-60):ℚ) := by norm_num
  rw [hq]
  have h := f32_int ((-60)) (by decide)
  push_cast at h
  exact h

theorem edge_acc4 : f32 (((-60):ℚ) + (-40)) = ((-100):ℚ) := by
  have hq : (((-60):ℚ) + (-40)) = ((-100):ℚ) := by norm_num
  rw [hq]
  have h := f32_int ((-100)) (by decide)
  push_cast at h
  exact h

theorem edge_acc5 : f32 (((-100):ℚ) + 400) = (300:ℚ) := by
  have hq : (((-100):ℚ) + 400) = (300:ℚ) := by norm_num
  rw [hq]
  have h := f32_int (300) (by decide)
  push_cast at h
  exact h

theorem edge_acc6 : f32 ((300:ℚ) + (-60)) = (240:ℚ) := by
  have hq : ((300:ℚ) + (-60)) = (240:ℚ) := by norm_num
  rw [hq]
  have h := f32_int (240) (by decide)
  push_cast at h
  exact h

theorem edge_acc7 : f32 ((240:ℚ) + (-70)) = (170:ℚ) := by
  have hq : ((240:ℚ) + (-70)) = (170:ℚ) := by norm_num
  rw [hq]
  have h := f32_int (170) (by decide)
  push_cast at h
  exact h

theorem edge_acc8 : f32 ((170:ℚ) + (-80)) = (90:ℚ) := by
  have hq : ((170:ℚ) + (-80)) = (90:ℚ) := by norm_num
  rw [hq]
  have h := f32_int (90) (by decide)
  push_cast at h
  exact h

theorem edge_acc9 : f32 ((90:ℚ) + (-90)) = (0:ℚ) := by
  have hq : ((90:ℚ) + (-90)) = (0:ℚ) := by norm_num
  rw [hq]
  have h := f32_int (0) (by decide)
  push_cast at h
  exact h


/-- The convolution sum of the example image with the edge kernel at the
center pixel (1,1): all values are integral hence exact in binary32, and
8·50 − (10+20+30+40+60+70+80+90) = 400 − 400 = 0. -/
theorem edge_conv_center : convSum img3 3 3 1 edge_kernel 3 1 1 0 = 0 := by
  rw [convSum_three]
  rw [edge_term_mm, edge_term_mz, edge_term_mp, edge_term_zm, edge_term_zz,
    edge_term_zp, edge_term_pm, edge_term_pz, edge_term_pp]
  rw [edge_acc1, edge_acc2, edge_acc3, edge_acc4, edge_acc5, edge_acc6,
    edge_acc7, edge_acc8, edge_acc9]

theorem edge_out_center : applyFilterAt img3 3 3 1 edge_kernel 3 1 1 0 = 0 := by
  rw [applyFilterAt, edge_conv_center]
  norm_num [clampByte, ratTrunc]

/-! ### Committing write lists to a buffer -/

theorem commit_nil (buf : ℤ → ℕ) : commit buf [] = buf := rfl

theorem commit_cons (buf : ℤ → ℕ) (e : ℤ × ℕ) (ws : List (ℤ × ℕ)) :
    commit buf (e :: ws) = commit (writeByte buf e) ws := rfl

/-- When every store writes a value determined by its own index, the final
buffer depends only on the set of written indices — not on the order or
multiplicity of the stores. -/
theorem commit_of_valueFun (F : ℤ → ℕ) :
    ∀ (ws : List (ℤ × ℕ)), (∀ e ∈ ws, e.2 = F e.1) → ∀ (buf : ℤ → ℕ) (j : ℤ),
      commit buf ws j = if j ∈ ws.map Prod.fst then F j else buf j := by
  intro ws
  induction ws with
  | nil =>
    intro hv buf j
    simp [commit]
  | cons e t ih =>
    intro hv buf j
    rw [commit_cons, ih (fun x hx => hv x (List.mem_cons_of_mem e hx))]
    by_cases hj : j ∈ t.map Prod.fst
    · rw [if_pos hj, if_pos (by simp [hj])]
    · rw [if_neg hj]
      have he : e.2 = F e.1 := hv e (List.mem_cons_self e t)
      by_cases hje : j = e.1
      · subst hje
        rw [if_pos (by simp)]
        simp [writeByte, he]
      · rw [if_neg (by simp [hje, hj])]
        simp [writeByte, hje]

/-- Order independence of the stores: any permutation of an
index-determined write list commits to the same buffer. -/
theorem commit_perm (F : ℤ → ℕ) (ws ws' : List (ℤ × ℕ)) (buf : ℤ → ℕ) (j : ℤ)
    (hv : ∀ e ∈ ws, e.2 = F e.1) (hp : ws.Perm ws') :
    commit buf ws' j = commit buf ws j := by
  have hv' : ∀ e ∈ ws', e.2 = F e.1 := fun e he => hv e (hp.symm.subset he)
  rw [commit_of_valueFun F ws hv buf j, commit_of_valueFun F ws' hv' buf j]
  exact if_congr (hp.map Prod.fst).symm.mem_iff rfl rfl

theorem mem_rangeZ (n : ℕ) (z : ℤ) : z ∈ rangeZ n ↔ 0 ≤ z ∧ z < n := by
  rw [rangeZ]
  constructor
  · intro hz
    obtain ⟨i, hi, rfl⟩ := List.mem_map.mp hz
    have := List.mem_range.mp hi
    omega
  · rintro ⟨h0, h1⟩
    exact List.mem_map.mpr ⟨z.toNat, List.mem_range.mpr (by omega), by omega⟩

/-! ### Index decomposition -/

theorem pixelIdx_inv (w c x y ch : ℤ) (hw : 1 ≤ w) (hc : 1 ≤ c)
    (hx0 : 0 ≤ x) (hx1 : x < w) (hch0 : 0 ≤ ch) (hch1 : ch < c) :
    chOf c (pixelIdx w c x y ch) = ch ∧ xOf w c (pixelIdx w c x y ch) = x ∧
      yOf w c (pixelIdx w c x y ch) = y := by
  have hcomm : pixelIdx w c x y ch = ch + (y * w + x) * c := by
    rw [pixelIdx]
    ring
  have hdiv : pixelIdx w c x y ch / c = y * w + x := by
    rw [hcomm, Int.add_mul_ediv_right ch (y * w + x) (by omega),
      Int.ediv_eq_zero_of_lt hch0 hch1]
    ring
  refine ⟨?_, ?_, ?_⟩
  · rw [chOf, hcomm, Int.add_mul_emod_self, Int.emod_eq_of_lt hch0 hch1]
  · rw [xOf, hdiv, add_comm (y * w) x, Int.add_mul_emod_self,
      Int.emod_eq_of_lt hx0 hx1]
  · rw [yOf, hdiv, add_comm (y * w) x, Int.add_mul_ediv_right x y (by omega),
      Int.ediv_eq_zero_of_lt hx0 hx1]
    ring

/-- The value the filter stores at buffer index `j`, as a function of `j`. -/
def outF (input : ℤ → ℕ) (w h c : ℤ) (k : List ℚ) (ks : ℤ) : ℤ → ℕ := fun j =>
  applyFilterAt input w h c k ks (xOf w c j) (yOf w c j) (chOf c j)

/-! ### Shape of the generated write lists -/

theorem mem_keys_bandWrites (input : ℤ → ℕ) (w h c : ℤ) (k : List ℚ)
    (ks a b j : ℤ) (hw : 0 ≤ w) (hc : 0 ≤ c) :
    j ∈ (bandWrites input w h c k ks a b).map Prod.fst ↔
      ∃ y x ch : ℤ, a ≤ y ∧ y < b ∧ 0 ≤ x ∧ x < w ∧ 0 ≤ ch ∧ ch < c ∧
        j = pixelIdx w c x y ch := by
  simp only [bandWrites, rowWrites, pixelWrites, List.map_flatMap, List.map_map,
    List.mem_flatMap, List.mem_map, mem_rangeZ, Function.comp]
  constructor
  · rintro ⟨dy, hdy, x, hx, ch, hch, rfl⟩
    exact ⟨a + dy, x, ch, by omega, by omega, hx.1, by omega, hch.1, by omega, rfl⟩
  · rintro ⟨y, x, ch, hy0, hy1, hx0, hx1, hch0, hch1, rfl⟩
    refine ⟨y - a, by omega, x, ⟨hx0, by omega⟩, ch, ⟨hch0, by omega⟩, ?_⟩
    rw [show a + (y - a) = y from by ring]

theorem bandWrites_value (input : ℤ → ℕ) (w h c : ℤ) (k : List ℚ)
    (ks a b : ℤ) (hw : 1 ≤ w) (hc : 1 ≤ c) :
    ∀ e ∈ bandWrites input w h c k ks a b,
      e.2 = outF input w h c k ks e.1 := by
  intro e he
  simp only [bandWrites, rowWrites, pixelWrites, List.mem_flatMap, List.mem_map,
    mem_rangeZ] at he
  obtain ⟨dy, hdy, x, hx, ch, hch, rfl⟩ := he
  simp only [outF]
  obtain ⟨h1, h2, h3⟩ :=
    pixelIdx_inv w c x (a + dy) ch hw hc hx.1 (by omega) hch.1 (by omega)
  rw [h1, h2, h3]

theorem pthreadWrites_value (N : ℤ) (input : ℤ → ℕ) (w h c : ℤ) (k : List ℚ)
    (ks : ℤ) (hw : 1 ≤ w) (hc : 1 ≤ c) :
    ∀ e ∈ pthreadWrites N input w h c k ks,
      e.2 = outF input w h c k ks e.1 := by
  intro e he
  simp only [pthreadWrites, List.mem_flatMap] at he
  obtain ⟨i, _, hmem⟩ := he
  exact bandWrites_value input w h c k ks _ _ hw hc e hmem

/-! ### The static row partition of the pthreads variant -/

theorem rows_nonneg (N H : ℤ) (hN : 1 ≤ N) (hH : 0 ≤ H) : 0 ≤ H / N :=
  Int.ediv_nonneg hH (by omega)

theorem bandStart_zero (N H : ℤ) : bandStart N H 0 = 0 := by
  simp [bandStart]

theorem bandEnd_last (N H : ℤ) : bandEnd N H (N - 1) = H := by
  simp [bandEnd]

theorem bandStart_nonneg (N H i : ℤ) (hN : 1 ≤ N) (hH : 0 ≤ H) (hi : 0 ≤ i) :
    0 ≤ bandStart N H i :=
  mul_nonneg hi (rows_nonneg N H hN hH)

theorem bandEnd_le (N H i : ℤ) (hN : 1 ≤ N) (hH : 0 ≤ H) (hi : i < N) :
    bandEnd N H i ≤ H := by
  rw [bandEnd]
  split_ifs with hlast
  · exact le_rfl
  · have h1 : (i + 1) * (H / N) ≤ N * (H / N) :=
      mul_le_mul_of_nonneg_right (by omega) (rows_nonneg N H hN hH)
    have h2 : H / N * N ≤ H := Int.ediv_mul_le H (by omega)
    calc (i + 1) * (H / N) ≤ N * (H / N) := h1
      _ = H / N * N := by ring
      _ ≤ H := h2

/-- Successive bands do not overlap: earlier bands end no later than later
bands start. -/
theorem bands_mono (N H i j : ℤ) (hN : 1 ≤ N) (hH : 0 ≤ H)
    (hij : i < j) (hj : j < N) : bandEnd N H i ≤ bandStart N H j := by
  rw [bandEnd, if_neg (by omega), bandStart]
  exact mul_le_mul_of_nonneg_right (by omega) (rows_nonneg N H hN hH)

/-- Every row of the image lies in some band. -/
theorem bands_cover (N H y : ℤ) (hN : 1 ≤ N) (hy0 : 0 ≤ y) (hy1 : y < H) :
    ∃ i, 0 ≤ i ∧ i < N ∧ bandStart N H i ≤ y ∧ y < bandEnd N H i := by
  have hH : 0 ≤ H := by omega
  have hr0 : 0 ≤ H / N := rows_nonneg N H hN hH
  by_cases hcase : y < (N - 1) * (H / N)
  · have hrpos : 0 < H / N := by
      rcases eq_or_lt_of_le hr0 with heq | h
      · exfalso
        rw [← heq, mul_zero] at hcase
        omega
      · exact h
    have hidx : y / (H / N) < N - 1 := (Int.ediv_lt_iff_lt_mul hrpos).mpr hcase
    refine ⟨y / (H / N), Int.ediv_nonneg hy0 hr0, by omega, ?_, ?_⟩
    · rw [bandStart]
      exact Int.ediv_mul_le y (by omega)
    · rw [bandEnd, if_neg (by omega)]
      exact Int.lt_ediv_add_one_mul_self y hrpos
  · refine ⟨N - 1, by omega, by omega, ?_, ?_⟩
    · rw [bandStart]
      omega
    · rw [bandEnd, if_pos rfl]
      exact hy1

/-! ### Key sets of the two variants coincide -/

theorem mem_keys_pthreadWrites (N : ℤ) (input : ℤ → ℕ) (w h c : ℤ)
    (k : List ℚ) (ks j : ℤ) (hN : 0 ≤ N) :
    j ∈ (pthreadWrites N input w h c k ks).map Prod.fst ↔
      ∃ i, 0 ≤ i ∧ i < N ∧ j ∈ (bandWrites input w h c k ks
        (bandStart N h i) (bandEnd N h i)).map Prod.fst := by
  simp only [pthreadWrites, List.map_flatMap, List.mem_flatMap, mem_rangeZ]
  constructor
  · rintro ⟨i, hi, hmem⟩
    exact ⟨i, hi.1, by omega, hmem⟩
  · rintro ⟨i, h0, h1, hmem⟩
    exact ⟨i, ⟨h0, by omega⟩, hmem⟩

theorem pthread_omp_keys (N : ℤ) (input : ℤ → ℕ) (w h c : ℤ) (k : List ℚ)
    (ks j : ℤ) (hN : 1 ≤ N) (hh : 0 ≤ h) (hw : 0 ≤ w) (hc : 0 ≤ c) :
    j ∈ (pthreadWrites N input w h c k ks).map Prod.fst ↔
      j ∈ (ompWrites input w h c k ks).map Prod.fst := by
  rw [mem_keys_pthreadWrites N input w h c k ks j (by omega), ompWrites,
    mem_keys_bandWrites input w h c k ks 0 h j hw hc]
  constructor
  · rintro ⟨i, h0, h1, hmem⟩
    rw [mem_keys_bandWrites input w h c k ks _ _ j hw hc] at hmem
    obtain ⟨y, x, ch, hy0, hy1, hx0, hx1, hch0, hch1, rfl⟩ := hmem
    have hs := bandStart_nonneg N h i hN hh h0
    have he := bandEnd_le N h i hN hh h1
    exact ⟨y, x, ch, by omega, by omega, hx0, hx1, hch0, hch1, rfl⟩
  · rintro ⟨y, x, ch, hy0, hy1, hx0, hx1, hch0, hch1, rfl⟩
    obtain ⟨i, hi0, hi1, his, hie⟩ := bands_cover N h y hN hy0 hy1
    refine ⟨i, hi0, hi1, ?_⟩
    rw [mem_keys_bandWrites input w h c k ks _ _ _ hw hc]
    exact ⟨y, x, ch, his, hie, hx0, hx1, hch0, hch1, rfl⟩

/-- The central refinement fact: for any worker count `N ≥ 1`, committing
the pthreads stores yields exactly the buffer committed by the OpenMP
stores, at every address. -/
theorem commit_pthread_eq_omp (N : ℤ) (input : ℤ → ℕ) (w h c : ℤ)
    (k : List ℚ) (ks : ℤ) (buf : ℤ → ℕ) (j : ℤ)
    (hN : 1 ≤ N) (hw : 1 ≤ w) (hh : 1 ≤ h) (hc : 1 ≤ c) :
    commit buf (pthreadWrites N input w h c k ks) j
      = commit buf (ompWrites input w h c k ks) j := by
  rw [commit_of_valueFun (outF input w h c k ks) _
    (pthreadWrites_value N input w h c k ks hw hc) buf j]
  rw [show ompWrites input w h c k ks = bandWrites input w h c k ks 0 h from rfl]
  rw [commit_of_valueFun (outF input w h c k ks) _
    (fun e he => bandWrites_value input w h c k ks 0 h hw hc e he) buf j]
  exact if_congr (pthread_omp_keys N input w h c k ks j hN (by omega)
    (by omega) (by omega)) rfl rfl

/-! ### No index is written twice -/

theorem commit_not_mem :
    ∀ (ws : List (ℤ × ℕ)) (j : ℤ), j ∉ ws.map Prod.fst →
      ∀ b, commit b ws j = b j := by
  intro ws
  induction ws with
  | nil =>
    intro j hj b
    rfl
  | cons e t ih =>
    intro j hj b
    rw [commit_cons]
    have hj1 : j ≠ e.1 := by
      intro hcontra
      exact hj (by simp [hcontra])
    have hj2 : j ∉ t.map Prod.fst := by
      intro hcontra
      exact hj (by simp [hcontra])
    rw [ih j hj2]
    simp [writeByte, hj1]

theorem rangeZ_nodup (n : ℕ) : (rangeZ n).Nodup :=
  (List.nodup_range n).map (fun a b => by omega)

theorem rangeZ_pairwise_lt (n : ℕ) : (rangeZ n).Pairwise (· < ·) := by
  rw [rangeZ, List.pairwise_map]
  exact (List.pairwise_lt_range n).imp (by intro a b hab; exact_mod_cast hab)

theorem mem_keys_pixelWrites (input : ℤ → ℕ) (w h c : ℤ) (k : List ℚ)
    (ks y x j : ℤ) (hc : 0 ≤ c) :
    j ∈ (pixelWrites input w h c k ks y x).map Prod.fst ↔
      ∃ ch, 0 ≤ ch ∧ ch < c ∧ j = pixelIdx w c x y ch := by
  simp only [pixelWrites, List.map_map, List.mem_map, mem_rangeZ, Function.comp]
  constructor
  · rintro ⟨ch, hch, rfl⟩
    exact ⟨ch, hch.1, by omega, rfl⟩
  · rintro ⟨ch, h0, h1, rfl⟩
    exact ⟨ch, ⟨h0, by omega⟩, rfl⟩

theorem pixelWrites_keys_nodup (input : ℤ → ℕ) (w h c : ℤ) (k : List ℚ)
    (ks y x : ℤ) : ((pixelWrites input w h c k ks y x).map Prod.fst).Nodup := by
  rw [pixelWrites, List.map_map]
  refine List.Nodup.map_on ?_ (rangeZ_nodup _)
  intro ch1 h1 ch2 h2 heq
  simp only [Function.comp] at heq
  rw [pixelIdx, pixelIdx] at heq
  omega

theorem rowWrites_keys_nodup (input : ℤ → ℕ) (w h c : ℤ) (k : List ℚ)
    (ks y : ℤ) (hw : 1 ≤ w) (hc : 1 ≤ c) :
    ((rowWrites input w h c k ks y).map Prod.fst).Nodup := by
  rw [rowWrites, List.map_flatMap]
  refine List.nodup_flatMap.mpr ⟨?_, ?_⟩
  · intro x hx
    exact pixelWrites_keys_nodup input w h c k ks y x
  · refine List.Pairwise.imp_of_mem ?_ (rangeZ_pairwise_lt _)
    intro x1 x2 hm1 hm2 hlt j hj1 hj2
    rw [mem_keys_pixelWrites input w h c k ks y x1 j (by omega)] at hj1
    rw [mem_keys_pixelWrites input w h c k ks y x2 j (by omega)] at hj2
    obtain ⟨ch1, hch1a, hch1b, rfl⟩ := hj1
    obtain ⟨ch2, hch2a, hch2b, heq⟩ := hj2
    rw [mem_rangeZ] at hm1 hm2
    have d1 := (pixelIdx_inv w c x1 y ch1 hw hc (by omega) (by omega) hch1a hch1b).2.1
    have d2 := (pixelIdx_inv w c x2 y ch2 hw hc (by omega) (by omega) hch2a hch2b).2.1
    rw [heq] at d1
    omega

theorem mem_keys_rowWrites (input : ℤ → ℕ) (w h c : ℤ) (k : List ℚ)
    (ks y j : ℤ) (hw : 0 ≤ w) (hc : 0 ≤ c) :
    j ∈ (rowWrites input w h c k ks y).map Prod.fst ↔
      ∃ x ch, 0 ≤ x ∧ x < w ∧ 0 ≤ ch ∧ ch < c ∧ j = pixelIdx w c x y ch := by
  simp only [rowWrites, List.map_flatMap, List.mem_flatMap, mem_rangeZ]
  constructor
  · rintro ⟨x, hx, hmem⟩
    rw [mem_keys_pixelWrites input w h c k ks y x j hc] at hmem
    obtain ⟨ch, h0, h1, rfl⟩ := hmem
    exact ⟨x, ch, hx.1, by omega, h0, h1, rfl⟩
  · rintro ⟨x, ch, hx0, hx1, hch0, hch1, rfl⟩
    refine ⟨x, ⟨hx0, by omega⟩, ?_⟩
    rw [mem_keys_pixelWrites input w h c k ks y x _ hc]
    exact ⟨ch, hch0, hch1, rfl⟩

theorem bandWrites_keys_nodup (input : ℤ → ℕ) (w h c : ℤ) (k : List ℚ)
    (ks a b : ℤ) (hw : 1 ≤ w) (hc : 1 ≤ c) :
    ((bandWrites input w h c k ks a b).map Prod.fst).Nodup := by
  rw [bandWrites, List.map_flatMap]
  refine List.nodup_flatMap.mpr ⟨?_, ?_⟩
  · intro dy hdy
    exact rowWrites_keys_nodup input w h c k ks (a + dy) hw hc
  · refine List.Pairwise.imp_of_mem ?_ (rangeZ_pairwise_lt _)
    intro dy1 dy2 hm1 hm2 hlt j hj1 hj2
    have hrm1 : j ∈ (rowWrites input w h c k ks (a + dy1)).map Prod.fst := hj1
    have hrm2 : j ∈ (rowWrites input w h c k ks (a + dy2)).map Prod.fst := hj2
    rw [mem_keys_rowWrites input w h c k ks _ j (by omega) (by omega)] at hrm1 hrm2
    obtain ⟨x1, ch1, hx1a, hx1b, hch1a, hch1b, rfl⟩ := hrm1
    obtain ⟨x2, ch2, hx2a, hx2b, hch2a, hch2b, heq⟩ := hrm2
    have d1 := (pixelIdx_inv w c x1 (a + dy1) ch1 hw hc hx1a hx1b hch1a hch1b).2.2
    have d2 := (pixelIdx_inv w c x2 (a + dy2) ch2 hw hc hx2a hx2b hch2a hch2b).2.2
    rw [heq] at d1
    omega

theorem pthreadWrites_keys_nodup (N : ℤ) (input : ℤ → ℕ) (w h c : ℤ)
    (k : List ℚ) (ks : ℤ) (hN : 1 ≤ N) (hh : 0 ≤ h) (hw : 1 ≤ w) (hc : 1 ≤ c) :
    ((pthreadWrites N input w h c k ks).map Prod.fst).Nodup := by
  rw [pthreadWrites, List.map_flatMap]
  refine List.nodup_flatMap.mpr ⟨?_, ?_⟩
  · intro i hi
    exact bandWrites_keys_nodup input w h c k ks _ _ hw hc
  · refine List.Pairwise.imp_of_mem ?_ (rangeZ_pairwise_lt _)
    intro i1 i2 hm1 hm2 hlt j hj1 hj2
    rw [mem_rangeZ] at hm1 hm2
    have hb1 : j ∈ (bandWrites input w h c k ks (bandStart N h i1)
        (bandEnd N h i1)).map Prod.fst := hj1
    have hb2 : j ∈ (bandWrites input w h c k ks (bandStart N h i2)
        (bandEnd N h i2)).map Prod.fst := hj2
    rw [mem_keys_bandWrites input w h c k ks _ _ j (by omega) (by omega)] at hb1 hb2
    obtain ⟨y1, x1, ch1, hy1a, hy1b, hx1a, hx1b, hch1a, hch1b, rfl⟩ := hb1
    obtain ⟨y2, x2, ch2, hy2a, hy2b, hx2a, hx2b, hch2a, hch2b, heq⟩ := hb2
    have d1 := (pixelIdx_inv w c x1 y1 ch1 hw hc hx1a hx1b hch1a hch1b).2.2
    have d2 := (pixelIdx_inv w c x2 y2 ch2 hw hc hx2a hx2b hch2a hch2b).2.2
    rw [heq] at d1
    have hmono := bands_mono N h i1 i2 hN hh hlt (by omega)
    omega
  

theorem pixelIdx_bounds (w h c x y ch : ℤ) (hx : 0 ≤ x) (hx1 : x < w)
    (hy : 0 ≤ y) (hy1 : y < h) (hch : 0 ≤ ch) (hch1 : ch < c) :
    0 ≤ pixelIdx w c x y ch ∧ pixelIdx w c x y ch < w * h * c := by
  rw [pixelIdx]
  have hw : (1:ℤ) ≤ w := by omega
  have hc : (1:ℤ) ≤ c := by omega
  have h1 : y * w + x ≤ h * w - 1 := by
    nlinarith [mul_nonneg (show (0:ℤ) ≤ h - 1 - y by omega) (show (0:ℤ) ≤ w by omega)]
  have h2 : (y * w + x) * c ≤ (h * w - 1) * c :=
    mul_le_mul_of_nonneg_right h1 (by omega)
  have h3 : (0:ℤ) ≤ (y * w + x) * c :=
    mul_nonneg (by nlinarith [mul_nonneg hy (show (0:ℤ) ≤ w by omega)]) (by omega)
  constructor
  · omega
  · nlinarith

/-- A band's stores cover exactly the bytes of the rows it owns. -/
theorem band_owns (input : ℤ → ℕ) (w h c : ℤ) (k : List ℚ) (ks : ℤ)
    (a b x y ch : ℤ) (hw : 1 ≤ w) (hc : 1 ≤ c)
    (hx : 0 ≤ x) (hx1 : x < w) (hch : 0 ≤ ch) (hch1 : ch < c) :
    pixelIdx w c x y ch ∈ (bandWrites input w h c k ks a b).map Prod.fst ↔
      (a ≤ y ∧ y < b) := by
  rw [mem_keys_bandWrites input w h c k ks a b _ (by omega) (by omega)]
  constructor
  · rintro ⟨y', x', ch', hy0, hy1, hx0', hx1', hch0', hch1', heq⟩
    have d1 := (pixelIdx_inv w c x' y' ch' hw hc hx0' hx1' hch0' hch1').2.2
    have d2 := (pixelIdx_inv w c x y ch hw hc hx hx1 hch hch1).2.2
    rw [heq] at d2
    omega
  · rintro ⟨h0, h1⟩
    exact ⟨y, x, ch, h0, h1, hx, hx1, hch, hch1, rfl⟩

/-- Every output byte is stored exactly once across all workers. -/
theorem pthreadWrites_write_once (N : ℤ) (input : ℤ → ℕ) (w h c : ℤ)
    (k : List ℚ) (ks x y ch : ℤ) (hN : 1 ≤ N) (hw : 1 ≤ w) (hh : 1 ≤ h)
    (hc : 1 ≤ c) (hx : 0 ≤ x) (hx1 : x < w) (hy : 0 ≤ y) (hy1 : y < h)
    (hch : 0 ≤ ch) (hch1 : ch < c) :
    ((pthreadWrites N input w h c k ks).map Prod.fst).count
      (pixelIdx w c x y ch) = 1 := by
  apply List.count_eq_one_of_mem
    (pthreadWrites_keys_nodup N input w h c k ks hN (by omega) hw hc)
  rw [pthread_omp_keys N input w h c k ks _ hN (by omega) (by omega) (by omega),
    ompWrites, mem_keys_bandWrites input w h c k ks 0 h _ (by omega) (by omega)]
  exact ⟨y, x, ch, hy, hy1, hx, hx1, hch, hch1, rfl⟩

/-! ### The single-memory frame property -/

theorem mem_keys_shiftWrites (base : ℤ) (ws : List (ℤ × ℕ)) (j : ℤ) :
    j ∈ (shiftWrites base ws).map Prod.fst ↔
      ∃ j0, j0 ∈ ws.map Prod.fst ∧ j = base + j0 := by
  simp only [shiftWrites, List.map_map, List.mem_map, Function.comp]
  constructor
  · rintro ⟨e, he, rfl⟩
    exact ⟨e.1, ⟨e, he, rfl⟩, rfl⟩
  · rintro ⟨j0, ⟨e, he, rfl⟩, rfl⟩
    exact ⟨e, he, rfl⟩

/-- Addresses outside the output region `[S, 2S)` are never stored to. -/
theorem memRunPthreads_frame (mem : ℤ → ℕ) (w h c : ℤ) (k : List ℚ) (ks j : ℤ)
    (hw : 1 ≤ w) (hh : 1 ≤ h) (hc : 1 ≤ c)
    (hj : j < w * h * c ∨ 2 * (w * h * c) ≤ j) :
    memRunPthreads mem w h c k ks j = mem j := by
  rw [memRunPthreads]
  apply commit_not_mem
  intro hmem
  rw [mem_keys_shiftWrites] at hmem
  obtain ⟨j0, hj0, rfl⟩ := hmem
  rw [pthread_omp_keys NUM_THREADS mem w h c k ks _ (by norm_num [NUM_THREADS])
    (by omega) (by omega) (by omega), ompWrites,
    mem_keys_bandWrites mem w h c k ks 0 h _ (by omega) (by omega)] at hj0
  obtain ⟨y, x, ch, hy0, hy1, hx0, hx1, hch0, hch1, rfl⟩ := hj0
  have := pixelIdx_bounds w h c x y ch hx0 hx1 hy0 hy1 hch0 hch1
  omega

/-! ## The claims -/

/-- C1: for every image (W, H ≥ 1, C ≥ 1) and every kernel of the registry,
the pthreads `apply_filter` (static partition of rows into 4 contiguous
bands) commits a buffer byte-for-byte identical to the OpenMP
`apply_filter`; the result is unchanged for any other worker count `N ≥ 1`
and under any permutation of the stores (any scheduling order). -/
theorem claim_C1 (name : String) (k : List ℚ) (_hk : (name, k) ∈ registry)
    (input : ℤ → ℕ) (w h c : ℤ) (hw : 1 ≤ w) (hh : 1 ≤ h) (hc : 1 ≤ c)
    (buf : ℤ → ℕ) (j : ℤ) :
    commit buf (pthreadWrites NUM_THREADS input w h c k 3) j
      = commit buf (ompWrites input w h c k 3) j ∧
    (∀ N : ℤ, 1 ≤ N →
      commit buf (pthreadWrites N input w h c k 3) j
        = commit buf (ompWrites input w h c k 3) j) ∧
    (∀ ws' : List (ℤ × ℕ), (ompWrites input w h c k 3).Perm ws' →
      commit buf ws' j = commit buf (ompWrites input w h c k 3) j) := by
  refine ⟨?_, ?_, ?_⟩
  · exact commit_pthread_eq_omp NUM_THREADS input w h c k 3 buf j
      (by norm_num [NUM_THREADS]) hw hh hc
  · intro N hN
    exact commit_pthread_eq_omp N input w h c k 3 buf j hN hw hh hc
  · intro ws' hperm
    rw [show ompWrites input w h c k 3 = bandWrites input w h c k 3 0 h from rfl]
      at hperm ⊢
    exact commit_perm (outF input w h c k 3) _ ws' buf j
      (bandWrites_value input w h c k 3 0 h hw hc) hperm

theorem claim_C1_witness :
    ("edge", edge_kernel) ∈ registry ∧
    commit (fun _ => 0) (pthreadWrites NUM_THREADS (fun _ => 7) 1 1 1 edge_kernel 3) 0
      = commit (fun _ => 0) (ompWrites (fun _ => 7) 1 1 1 edge_kernel 3) 0 :=
  ⟨by simp [registry],
   (claim_C1 "edge" edge_kernel (by simp [registry]) (fun _ => 7) 1 1 1
     (by norm_num) (by norm_num) (by norm_num) (fun _ => 0) 0).1⟩

/-- C2: for every image and the identity kernel, the committed output
buffer equals the input buffer at every (x, y, channel). -/
theorem claim_C2 (input : ℤ → ℕ) (w h c : ℤ) (hin : ∀ j, input j ≤ 255)
    (hw : 1 ≤ w) (_hh : 1 ≤ h) (hc : 1 ≤ c) (buf : ℤ → ℕ) (x y ch : ℤ)
    (hx : 0 ≤ x) (hx1 : x < w) (hy : 0 ≤ y) (hy1 : y < h)
    (hch : 0 ≤ ch) (hch1 : ch < c) :
    commit buf (ompWrites input w h c identity_kernel 3) (pixelIdx w c x y ch)
      = input (pixelIdx w c x y ch) := by
  rw [show ompWrites input w h c identity_kernel 3
      = bandWrites input w h c identity_kernel 3 0 h from rfl]
  rw [commit_of_valueFun (outF input w h c identity_kernel 3) _
    (bandWrites_value input w h c identity_kernel 3 0 h hw hc) buf _]
  rw [if_pos]
  · simp only [outF]
    obtain ⟨d1, d2, d3⟩ := pixelIdx_inv w c x y ch hw hc hx hx1 hch hch1
    rw [d1, d2, d3]
    exact applyFilterAt_identity input w h c x y ch hin hx hx1 hy hy1
  · rw [mem_keys_bandWrites input w h c identity_kernel 3 0 h _ (by omega) (by omega)]
    exact ⟨y, x, ch, hy, hy1, hx, hx1, hch, hch1, rfl⟩

theorem claim_C2_witness :
    commit (fun _ => 0) (ompWrites (fun _ => 9) 2 2 1 identity_kernel 3)
      (pixelIdx 2 1 1 1 0) = 9 :=
  claim_C2 (fun _ => 9) 2 2 1 (fun _ => by norm_num) (by norm_num) (by norm_num)
    (by norm_num) (fun _ => 0) 1 1 0 (by norm_num) (by norm_num) (by norm_num)
    (by norm_num) (by norm_num) (by norm_num)

/-- C3 counterexample: for the example image and the edge kernel, the
accumulated sum at (1,1) is 0 — the eight neighbors of 50 sum to 400, not
410 — so the claim's value of −10 is wrong. -/
theorem claim_C3_counterexample :
    convSum img3 3 3 1 edge_kernel 3 1 1 0 ≠ -10 := by
  rw [edge_conv_center]
  norm_num

/-- C3 (amended): every output byte is the accumulated sum clamped into
[0, 255] and then truncated toward zero (on the clamped, nonnegative value
truncation coincides with the floor); for the 3×3 image
[[10,20,30],[40,50,60],[70,80,90]] and the edge kernel, the sum at (1,1)
is 8·50 − (10+20+30+40+60+70+80+90) = 400 − 400 = 0, and the output byte
there is 0. -/
theorem claim_C3 :
    (∀ (input : ℤ → ℕ) (w h c : ℤ) (k : List ℚ) (ks x y ch : ℤ),
      applyFilterAt input w h c k ks x y ch
        = (ratTrunc (max 0 (min 255 (convSum input w h c k ks x y ch)))).toNat) ∧
    (∀ q : ℚ, 0 ≤ q → ratTrunc q = ⌊q⌋) ∧
    convSum img3 3 3 1 edge_kernel 3 1 1 0 = 0 ∧
    applyFilterAt img3 3 3 1 edge_kernel 3 1 1 0 = 0 := by
  refine ⟨fun input w h c k ks x y ch => rfl, fun q hq => ?_,
    edge_conv_center, edge_out_center⟩
  rw [ratTrunc, if_neg (not_lt.mpr hq)]

/-- C4: each neighbor coordinate is clamped independently per axis into
[0, dimension−1]: the clamped value is always in range, in-range values
are unchanged, values below 0 map to 0 and values at or above the bound
map to `bound − 1` (the nearest edge — never wrapped), and the clamped
coordinate is at least as close to the original as any valid coordinate. -/
theorem claim_C4 (w h x y kx ky : ℤ) (hw : 1 ≤ w) (hh : 1 ≤ h) :
    (0 ≤ clampCoord (x + kx) w ∧ clampCoord (x + kx) w < w) ∧
    (0 ≤ clampCoord (y + ky) h ∧ clampCoord (y + ky) h < h) ∧
    (0 ≤ x + kx → x + kx < w → clampCoord (x + kx) w = x + kx) ∧
    (x + kx < 0 → clampCoord (x + kx) w = 0) ∧
    (w ≤ x + kx → clampCoord (x + kx) w = w - 1) ∧
    (∀ u : ℤ, 0 ≤ u → u < w →
      |x + kx - clampCoord (x + kx) w| ≤ |x + kx - u|) := by
  refine ⟨clampCoord_mem (x + kx) w hw, clampCoord_mem (y + ky) h hh,
    fun h0 h1 => clampCoord_id _ _ h0 h1,
    fun h0 => clampCoord_low _ _ h0 hw,
    fun h0 => clampCoord_high _ _ h0 hw, ?_⟩
  intro u hu0 hu1
  rcases lt_trichotomy (x + kx) 0 with hv | hv | hv
  · rw [clampCoord_low _ _ hv hw, abs_of_nonpos (by omega),
      abs_of_nonpos (by omega)]
    omega
  · rw [hv, clampCoord_id _ _ (by omega) (by omega)]
    simp
  · by_cases hvw : x + kx < w
    · rw [clampCoord_id _ _ (by omega) hvw]
      simp
    · rw [clampCoord_high _ _ (by omega) hw, abs_of_nonneg (by omega),
        abs_of_nonneg (by omega)]
      omega

theorem claim_C4_witness :
    (0 ≤ clampCoord ((0:ℤ) + (-1)) 3 ∧ clampCoord ((0:ℤ) + (-1)) 3 < 3) ∧
    (0 ≤ clampCoord ((2:ℤ) + 1) 3 ∧ clampCoord ((2:ℤ) + 1) 3 < 3) ∧
    ((0:ℤ) + (-1) < 0 → clampCoord ((0:ℤ) + (-1)) 3 = 0) :=
  ⟨(claim_C4 3 3 0 2 (-1) 1 (by norm_num) (by norm_num)).1,
   ⟨((claim_C4 3 3 2 0 1 (-1) (by norm_num) (by norm_num)).1.1),
    ((claim_C4 3 3 2 0 1 (-1) (by norm_num) (by norm_num)).1.2)⟩,
   fun h0 => (claim_C4 3 3 0 2 (-1) 1 (by norm_num) (by norm_num)).2.2.2.1 h0⟩

/-- C5 counterexample: a 1×1 constant image of value 3 filtered with the
blur kernel yields the byte 2, not 3 — the nine binary32 accumulations of
`3 * fl(1/9)` land just below 3 and the final truncation drops to 2. -/
theorem claim_C5_counterexample :
    applyFilterAt (fun _ => (3:ℕ)) 1 1 1 blur_kernel 3 0 0 0 ≠ 3 := by
  rw [blur_out_const3]
  norm_num

/-- C5 (amended): for every constant-valued image (value v, 0 ≤ v ≤ 255)
filtered with the gaussian kernel, every committed output byte equals `v`
exactly; for the blur kernel the property fails (a constant image of
value 3 yields 2), because `9 · fl32(1/9) ≠ 1` in binary32. -/
theorem claim_C5 (v : ℕ) (hv : v ≤ 255) (w h c : ℤ)
    (hw : 1 ≤ w) (_hh : 1 ≤ h) (hc : 1 ≤ c) (buf : ℤ → ℕ) (x y ch : ℤ)
    (hx : 0 ≤ x) (hx1 : x < w) (hy : 0 ≤ y) (hy1 : y < h)
    (hch : 0 ≤ ch) (hch1 : ch < c) :
    commit buf (ompWrites (fun _ => v) w h c gaussian_kernel 3)
      (pixelIdx w c x y ch) = v := by
  rw [show ompWrites (fun _ => v) w h c gaussian_kernel 3
      = bandWrites (fun _ => v) w h c gaussian_kernel 3 0 h from rfl]
  rw [commit_of_valueFun (outF (fun _ => v) w h c gaussian_kernel 3) _
    (bandWrites_value (fun _ => v) w h c gaussian_kernel 3 0 h hw hc) buf _]
  rw [if_pos]
  · simp only [outF]
    exact applyFilterAt_gaussian_const v hv w h c _ _ _
  · rw [mem_keys_bandWrites (fun _ => v) w h c gaussian_kernel 3 0 h _
      (by omega) (by omega)]
    exact ⟨y, x, ch, hy, hy1, hx, hx1, hch, hch1, rfl⟩

theorem claim_C5_witness :
    commit (fun _ => 0) (ompWrites (fun _ => 200) 1 2 1 gaussian_kernel 3)
      (pixelIdx 1 1 0 1 0) = 200 :=
  claim_C5 200 (by norm_num) 1 2 1 (by norm_num) (by norm_num) (by norm_num)
    (fun _ => 0) 0 1 0 (by norm_num) (by norm_num) (by norm_num) (by norm_num)
    (by norm_num) (by norm_num)

/-- C6: for every height H ≥ 1 and worker count N ≥ 1 the static row
partition starts at 0, its first N−1 bands have size ⌊H/N⌋, the final band
ends exactly at H, consecutive bands are contiguous, distinct bands are
disjoint, and the bands cover exactly the row range [0, H). -/
theorem claim_C6 (N H : ℤ) (hN : 1 ≤ N) (hH : 1 ≤ H) :
    bandStart N H 0 = 0 ∧
    bandEnd N H (N - 1) = H ∧
    (∀ i, 0 ≤ i → i < N - 1 → bandEnd N H i - bandStart N H i = H / N) ∧
    (∀ i, 0 ≤ i → i < N - 1 → bandEnd N H i = bandStart N H (i + 1)) ∧
    (∀ i j, 0 ≤ i → i < j → j < N → bandEnd N H i ≤ bandStart N H j) ∧
    (∀ y, (0 ≤ y ∧ y < H) ↔
      ∃ i, 0 ≤ i ∧ i < N ∧ bandStart N H i ≤ y ∧ y < bandEnd N H i) := by
  refine ⟨bandStart_zero N H, bandEnd_last N H, ?_, ?_, ?_, ?_⟩
  · intro i h0 h1
    rw [bandEnd, if_neg (by omega), bandStart]
    ring
  · intro i h0 h1
    rw [bandEnd, if_neg (by omega), bandStart]
  · intro i j h0 hij hj
    exact bands_mono N H i j hN (by omega) hij hj
  · intro y
    constructor
    · rintro ⟨hy0, hy1⟩
      exact bands_cover N H y hN hy0 hy1
    · rintro ⟨i, hi0, hi1, hs, he⟩
      have h1 := bandStart_nonneg N H i hN (by omega) hi0
      have h2 := bandEnd_le N H i hN (by omega) hi1
      omega

theorem claim_C6_witness :
    bandStart 4 10 0 = 0 ∧ bandEnd 4 10 (4 - 1) = 10 ∧
    bandEnd 4 10 1 - bandStart 4 10 1 = 10 / 4 :=
  ⟨(claim_C6 4 10 (by norm_num) (by norm_num)).1,
   (claim_C6 4 10 (by norm_num) (by norm_num)).2.1,
   (claim_C6 4 10 (by norm_num) (by norm_num)).2.2.1 1 (by norm_num) (by norm_num)⟩

/-- C7: a filter name other than the six registry names (case-sensitive)
makes the kernel lookup fail: both variants of `main` report the unknown
kernel and produce no store list at all, and no kernel is defaulted; each
of the six names selects exactly its registry kernel. -/
theorem claim_C7 :
    (∀ ft : String, ft ∉ kernelNames →
      selectKernel ft = none ∧
      ∀ (input : ℤ → ℕ) (w h c : ℤ),
        runMainOMP ft input w h c = none ∧
          runMainPthreads ft input w h c = none) ∧
    (∀ ft ∈ kernelNames, ∃ k, selectKernel ft = some k ∧ (ft, k) ∈ registry) := by
  constructor
  · intro ft hft
    simp only [kernelNames, List.mem_cons, List.not_mem_nil, or_false] at hft
    push_neg at hft
    obtain ⟨h1, h2, h3, h4, h5, h6⟩ := hft
    have hsel : selectKernel ft = none := by
      rw [selectKernel, if_neg h1, if_neg h2, if_neg h3, if_neg h4, if_neg h5,
        if_neg h6]
    refine ⟨hsel, fun input w h c => ⟨?_, ?_⟩⟩
    · rw [runMainOMP, hsel]
      rfl
    · rw [runMainPthreads, hsel]
      rfl
  · intro ft hft
    simp only [kernelNames, List.mem_cons, List.not_mem_nil, or_false] at hft
    rcases hft with rfl | rfl | rfl | rfl | rfl | rfl
    · exact ⟨edge_kernel, rfl, by simp [registry]⟩
    · exact ⟨sharpen_kernel, rfl, by simp [registry]⟩
    · exact ⟨blur_kernel, rfl, by simp [registry]⟩
    · exact ⟨gaussian_kernel, rfl, by simp [registry]⟩
    · exact ⟨emboss_kernel, rfl, by simp [registry]⟩
    · exact ⟨identity_kernel, rfl, by simp [registry]⟩

theorem claim_C7_witness :
    selectKernel "nonexistent" = none ∧ selectKernel "Edge" = none ∧
    runMainOMP "nonexistent" (fun _ => 0) 1 1 1 = none :=
  ⟨(claim_C7.1 "nonexistent" (by decide)).1,
   (claim_C7.1 "Edge" (by decide)).1,
   ((claim_C7.1 "nonexistent" (by decide)).2 (fun _ => 0) 1 1 1).1⟩

/-- C8: the filter never stores outside the output region — in the
single-memory picture with the input at [0, S) and the output at [S, 2S),
every address outside [S, 2S) (in particular every input byte) is
unchanged; each output byte is stored exactly once; and a band's stores
cover exactly the bytes of the rows that band owns. -/
theorem claim_C8 (mem : ℤ → ℕ) (w h c : ℤ) (k : List ℚ) (ks : ℤ)
    (hw : 1 ≤ w) (hh : 1 ≤ h) (hc : 1 ≤ c) :
    (∀ j, j < w * h * c ∨ 2 * (w * h * c) ≤ j →
      memRunPthreads mem w h c k ks j = mem j) ∧
    (∀ x y ch, 0 ≤ x → x < w → 0 ≤ y → y < h → 0 ≤ ch → ch < c →
      ((pthreadWrites NUM_THREADS mem w h c k ks).map Prod.fst).count
        (pixelIdx w c x y ch) = 1) ∧
    (∀ i x y ch, 0 ≤ x → x < w → 0 ≤ ch → ch < c →
      (pixelIdx w c x y ch ∈ (bandWrites mem w h c k ks
          (bandStart NUM_THREADS h i) (bandEnd NUM_THREADS h i)).map Prod.fst ↔
        (bandStart NUM_THREADS h i ≤ y ∧ y < bandEnd NUM_THREADS h i))) := by
  refine ⟨?_, ?_, ?_⟩
  · intro j hj
    exact memRunPthreads_frame mem w h c k ks j hw hh hc hj
  · intro x y ch hx hx1 hy hy1 hch hch1
    exact pthreadWrites_write_once NUM_THREADS mem w h c k ks x y ch
      (by norm_num [NUM_THREADS]) hw hh hc hx hx1 hy hy1 hch hch1
  · intro i x y ch hx hx1 hch hch1
    exact band_owns mem w h c k ks _ _ x y ch hw hc hx hx1 hch hch1

theorem claim_C8_witness :
    memRunPthreads (fun _ => 5) 1 1 1 edge_kernel 3 0 = 5 :=
  (claim_C8 (fun _ => 5) 1 1 1 edge_kernel 3 (by norm_num) (by norm_num)
    (by norm_num)).1 0 (by norm_num)

/-- C9: the output byte at (x, y, c) depends only on the input bytes of
channel c in the coordinate-clamped 3×3 neighborhood of (x, y): two inputs
that agree on those nine clamped positions produce the same output byte,
whatever the kernel. -/
theorem claim_C9 (input1 input2 : ℤ → ℕ) (w h c : ℤ) (k : List ℚ)
    (x y ch : ℤ)
    (hagree : ∀ ky kx : ℤ, -1 ≤ ky → ky ≤ 1 → -1 ≤ kx → kx ≤ 1 →
      input1 (pixelIdx w c (clampCoord (x + kx) w) (clampCoord (y + ky) h) ch)
        = input2 (pixelIdx w c (clampCoord (x + kx) w) (clampCoord (y + ky) h) ch)) :
    applyFilterAt input1 w h c k 3 x y ch
      = applyFilterAt input2 w h c k 3 x y ch := by
  rw [applyFilterAt, applyFilterAt]
  congr 1
  rw [convSum_three, convSum_three]
  simp only [convTerm]
  rw [hagree (-1) (-1) (by norm_num) (by norm_num) (by norm_num) (by norm_num),
    hagree (-1) 0 (by norm_num) (by norm_num) (by norm_num) (by norm_num),
    hagree (-1) 1 (by norm_num) (by norm_num) (by norm_num) (by norm_num),
    hagree 0 (-1) (by norm_num) (by norm_num) (by norm_num) (by norm_num),
    hagree 0 0 (by norm_num) (by norm_num) (by norm_num) (by norm_num),
    hagree 0 1 (by norm_num) (by norm_num) (by norm_num) (by norm_num),
    hagree 1 (-1) (by norm_num) (by norm_num) (by norm_num) (by norm_num),
    hagree 1 0 (by norm_num) (by norm_num) (by norm_num) (by norm_num),
    hagree 1 1 (by norm_num) (by norm_num) (by norm_num) (by norm_num)]

theorem claim_C9_witness :
    applyFilterAt (fun j => if j = 100 then 8 else 1) 2 2 1 edge_kernel 3 0 0 0
      = applyFilterAt (fun j => if j = 100 then 9 else 1) 2 2 1 edge_kernel 3 0 0 0 :=
  claim_C9 (fun j => if j = 100 then 8 else 1) (fun j => if j = 100 then 9 else 1)
    2 2 1 edge_kernel 0 0 0
    (by
      intro ky kx h1 h2 h3 h4
      have hcx := clampCoord_mem kx 2 (by norm_num)
      have hcy := clampCoord_mem ky 2 (by norm_num)
      simp only [zero_add]
      have hne : pixelIdx 2 1 (clampCoord kx 2) (clampCoord ky 2) 0 ≠ 100 := by
        rw [pixelIdx]
        omega
      simp [hne])

/-- C10: with the fixed worker count 4 and a height 1 ≤ H < 4, the row
bands degenerate — ⌊H/4⌋ = 0, the first three work units are the empty
range [0, 0) (their end is not greater than their start), the last unit
is [0, H) — yet the bands still cover [0, H) exactly, every output byte
is stored exactly once, and the committed buffer equals the OpenMP one. -/
theorem claim_C10 (H : ℤ) (hH1 : 1 ≤ H) (hH4 : H < 4) :
    H / NUM_THREADS = 0 ∧
    (∀ i, 0 ≤ i → i < 3 →
      bandStart NUM_THREADS H i = 0 ∧ bandEnd NUM_THREADS H i = 0 ∧
      ¬ bandStart NUM_THREADS H i < bandEnd NUM_THREADS H i) ∧
    bandStart NUM_THREADS H 3 = 0 ∧ bandEnd NUM_THREADS H 3 = H ∧
    (∀ y, (0 ≤ y ∧ y < H) ↔ ∃ i, 0 ≤ i ∧ i < NUM_THREADS ∧
        bandStart NUM_THREADS H i ≤ y ∧ y < bandEnd NUM_THREADS H i) ∧
    (∀ (input : ℤ → ℕ) (w c : ℤ) (k : List ℚ) (ks : ℤ), 1 ≤ w → 1 ≤ c →
      (∀ x y ch, 0 ≤ x → x < w → 0 ≤ y → y < H → 0 ≤ ch → ch < c →
        ((pthreadWrites NUM_THREADS input w H c k ks).map Prod.fst).count
          (pixelIdx w c x y ch) = 1) ∧
      (∀ (buf : ℤ → ℕ) (j : ℤ),
        commit buf (pthreadWrites NUM_THREADS input w H c k ks) j
          = commit buf (ompWrites input w H c k ks) j)) := by
  have h4 : NUM_THREADS = 4 := rfl
  have hdiv : H / NUM_THREADS = 0 := by
    rw [h4]
    exact Int.ediv_eq_zero_of_lt (by omega) (by omega)
  refine ⟨hdiv, ?_, ?_, ?_, ?_, ?_⟩
  · intro i h0 h3
    have hs : bandStart NUM_THREADS H i = 0 := by
      rw [bandStart, hdiv, mul_zero]
    have he : bandEnd NUM_THREADS H i = 0 := by
      rw [bandEnd, if_neg (by omega), hdiv, mul_zero]
    exact ⟨hs, he, by omega⟩
  · rw [bandStart, hdiv, mul_zero]
  · rw [bandEnd, if_pos (by rw [h4]; norm_num)]
  · intro y
    constructor
    · rintro ⟨hy0, hy1⟩
      exact bands_cover NUM_THREADS H y (by rw [h4]; norm_num) hy0 hy1
    · rintro ⟨i, hi0, hi1, hs, he⟩
      have h1 := bandStart_nonneg NUM_THREADS H i (by rw [h4]; norm_num)
        (by omega) hi0
      have h2 := bandEnd_le NUM_THREADS H i (by rw [h4]; norm_num) (by omega) hi1
      omega
  · intro input w c k ks hw hc
    constructor
    · intro x y ch hx hx1 hy hy1 hch hch1
      exact pthreadWrites_write_once NUM_THREADS input w H c k ks x y ch
        (by rw [h4]; norm_num) hw hH1 hc hx hx1 hy hy1 hch hch1
    · intro buf j
      exact commit_pthread_eq_omp NUM_THREADS input w H c k ks buf j
        (by rw [h4]; norm_num) hw hH1 hc

theorem claim_C10_witness :
    (2:ℤ) / NUM_THREADS = 0 ∧ bandEnd NUM_THREADS 2 3 = 2 ∧
    ¬ bandStart NUM_THREADS 2 0 < bandEnd NUM_THREADS 2 0 :=
  ⟨(claim_C10 2 (by norm_num) (by norm_num)).1,
   (claim_C10 2 (by norm_num) (by norm_num)).2.2.2.1,
   ((claim_C10 2 (by norm_num) (by norm_num)).2.1 0 (by norm_num) (by norm_num)).2.2⟩
